import Mathlib

/-!
Verification development for the ActiveBrownian 2-D particle simulation
(`src/state.cpp`, two revisions of the same file, and `src/simul.h`).

The embedding works over exact rationals: every `double` of the C++ source is
modelled as a `ℚ`, and the external math routines (`std::sqrt`, `sincos`) and
the random streams (mt19937 / MKL SFMT19937 draws) are abstracted as explicit
function parameters, since their implementations are library code outside the
repository.  Machine floating-point rounding is outside the scope of this
embedding; the claims under study are stated "within floating-point
tolerance", which exact arithmetic settles in the strongest form.

The cell-list class `Boxes` and the wrapping helpers `pbc` / `pbcSym` live in
`state.h` / `boxes.*`, which are not part of the given sources; they are
modelled from the spec where indicated.
-/

namespace ActiveBrownian

/-- Modelled from the spec: `pbc` (declared in `state.h`, not under `src/`),
the canonical non-negative periodic wrap used on stored positions and angles:
`x ← x mod p` with a result in `[0, p)` (spec sections 4.3 and 8). -/
def pbc (x p : ℚ) : ℚ := x - p * ⌊x / p⌋

/-- Modelled from the spec: `pbcSym` (declared in `state.h`, not under
`src/`), the signed/centered wrap producing the minimum-image displacement
component in `[-p/2, p/2)` (spec section 4.2). -/
def pbcSym (x p : ℚ) : ℚ := x - p * ⌊x / p + 1 / 2⌋

/-- The external real-valued math routines used by `state.cpp`
(`std::sqrt` and `sincos` from `<cmath>` / MKL), abstracted as an arbitrary
function table, since their implementations are not part of the repository. -/
structure MathFns where
  sqrt : ℚ → ℚ
  sin : ℚ → ℚ
  cos : ℚ → ℚ

/-- A concrete instance of `MathFns` used to evaluate the development on
explicit inputs: a finite value table for `sqrt` that is exact at the
arguments arising in the concrete configurations, and `sin = 0`, `cos = 1`
(the exact values at angle `0`). -/
def sqrtTable (q : ℚ) : ℚ :=
  if q = 0 then 0 else if q = 1 / 4 then 1 / 2 else if q = 1 then 1 else 1

/-- Concrete math-function table for witnesses. -/
def mathTable : MathFns := ⟨sqrtTable, fun _ => 0, fun _ => 1⟩

/-- The IEEE-754 double value of `2.0 * M_PI` used by `enforcePBC`
(`M_PI` rounds to `884279719003555 / 2^48`). -/
def twoPi : ℚ := 884279719003555 / 140737488355328

/-- Simulation parameters, as stored by the `State` constructor
(`state.cpp` lines 48-64).  `n_div` is the grid dimension of the spatial
index (`Boxes`), whose code is not under `src/`; per the spec (section 4.1)
the domain is covered by `n_div × n_div` cells of side `len / n_div ≥ 1`. -/
structure Params where
  len : ℚ
  n_parts : ℕ
  n_div : ℕ
  pot_strength : ℚ
  temperature : ℚ
  rot_dif : ℚ
  activity : ℚ
  dt : ℚ

/-- Gaussian noise scale `sqrt(2*temperature*dt)` (constructor,
`stddev_temp` / `noiseTemp`). -/
def stddevTemp (M : MathFns) (P : Params) : ℚ := M.sqrt (2 * P.temperature * P.dt)

/-- Gaussian noise scale `sqrt(2*rot_dif*dt)` (constructor,
`stddev_rot` / `noiseAngle`). -/
def stddevRot (M : MathFns) (P : Params) : ℚ := M.sqrt (2 * P.rot_dif * P.dt)

/-- The particle arrays owned by `State`: `positions[0]`, `positions[1]`,
`angles`, `forces[0]`, `forces[1]`, modelled as functions from the particle
index (entries at indices `≥ n_parts` are irrelevant), together with the
number of values consumed so far from the Gaussian stream of the generator
owned by the instance. -/
structure State where
  positions0 : ℕ → ℚ
  positions1 : ℕ → ℚ
  angles : ℕ → ℚ
  forces0 : ℕ → ℚ
  forces1 : ℕ → ℚ
  rngCount : ℕ

/-- Concrete fixture: the all-zero particle state. -/
def zeroState : State := ⟨fun _ => 0, fun _ => 0, fun _ => 0, fun _ => 0, fun _ => 0, 0⟩

/-- Concrete fixture: the constantly-zero draw stream. -/
def zeroStream : ℕ → ℚ := fun _ => 0

/-- Concrete fixture: the constantly-one-half draw stream. -/
def halfStream : ℕ → ℚ := fun _ => 1 / 2

/-- Concrete fixture: an injective draw stream, `g k = 5 + k`. -/
def gLin : ℕ → ℚ := fun k => 5 + k

/-- Concrete fixture: parameters with `stddev_temp = 1` and
`stddev_rot = 0` — box 7, one particle, grid 3, no potential, temperature
`1/2`, no rotational diffusion, no activity, unit timestep. -/
def paramsA : Params := ⟨7, 1, 3, 0, 1/2, 0, 0, 1⟩

/-- Concrete fixture: box 3, one particle, grid 3, unit potential,
temperature and rotational diffusivity 1, no activity, unit timestep. -/
def paramsB : Params := ⟨3, 1, 3, 1, 1, 1, 0, 1⟩

/-- Concrete fixture: a seed-indexed family of generator streams (uniform
unit stream, Gaussian stream), here constantly zero for every seed. -/
def constPrng : ℕ → (ℕ → ℚ) × (ℕ → ℚ) := fun _ => (zeroStream, zeroStream)

/-- Cell coordinates of the spatial index: a pair of residues modulo the
grid dimension (the grid is periodic). -/
abbrev Cell (nd : ℕ) := ZMod nd × ZMod nd

/-- Cell side of the spatial grid. -/
def cellSide (P : Params) : ℚ := P.len / P.n_div

/-- Modelled from the spec: cell assignment of the spatial index `Boxes`
(not under `src/`): the integer cell coordinate `(⌊x/cellside⌋, ⌊y/cellside⌋)`
reduced modulo the grid dimension (spec section 4.1). -/
def cellOf (nd : ℕ) (l : ℚ) (x y : ℚ) : Cell nd :=
  (((⌊x / l⌋ : ℤ) : ZMod nd), ((⌊y / l⌋ : ℤ) : ZMod nd))

/-- Modelled from the spec: the half-stencil offsets of the spatial index
(spec sections 4.1 and 9): a cell examines itself and the four neighbor
cells east, north-west, north and north-east, so that every unordered pair
of adjacent cells is examined from exactly one side. -/
def stencilShifts (nd : ℕ) : List (Cell nd) :=
  [(0, 0), (1, 0), (-1, 1), (0, 1), (1, 1)]

/-- Modelled from the spec: the neighbor cells `nbrs_pos` examined for a
given cell `b1` of the spatial index. -/
def stencil (nd : ℕ) (c : Cell nd) : List (Cell nd) :=
  (stencilShifts nd).map (fun d => c + d)

/-- The half-stencil relation: cell `c2` is examined from cell `c1`. -/
def stencilRel (nd : ℕ) (c1 c2 : Cell nd) : Prop := c2 - c1 ∈ stencilShifts nd

/-- Membership in the half-stencil is decidable. -/
instance (nd : ℕ) (c1 c2 : Cell nd) : Decidable (stencilRel nd c1 c2) := by
  unfold stencilRel
  infer_instance

/-- The list of all cells of the grid, in raster order. -/
def cellsList (nd : ℕ) : List (Cell nd) :=
  (List.range nd).flatMap (fun a => (List.range nd).map
    (fun b => (((a : ℕ) : ZMod nd), ((b : ℕ) : ZMod nd))))

/-- Modelled from the spec: `parts_of_box` of the spatial index, rebuilt from
the current positions on every force computation: the ordered list of the
particle indices lying in a given cell. -/
def partsOfBox (nd : ℕ) (l : ℚ) (n : ℕ) (pos0 pos1 : ℕ → ℚ) (b : Cell nd) : List ℕ :=
  (List.range n).filter (fun i => cellOf nd l (pos0 i) (pos1 i) = b)

/-- The body of the pair loop of `calcInternalForces` (`state.cpp` lines
172-182): minimum-image displacement through `pbcSym`, squared distance,
cutoff test `dr2 * (1 - dr2) > 0`, and the harmonic-sphere magnitude
`u = pot_strength * (1/sqrt(dr2) - 1)`; returns the contribution `(fx, fy)`
added to particle `i` (and subtracted from particle `j`). -/
def pairForce (M : MathFns) (k l : ℚ) (xi yi xj yj : ℚ) : ℚ × ℚ :=
  let dx := pbcSym (xi - xj) l
  let dy := pbcSym (yi - yj) l
  let dr2 := dx * dx + dy * dy
  if dr2 * (1 - dr2) > 0 then
    let u := k * (1 / M.sqrt dr2 - 1)
    (u * dx, u * dy)
  else (0, 0)

/-- One pair visit of `calcInternalForces` (`state.cpp` lines 184-187):
`forces[0][i] += fx; forces[0][j] -= fx; forces[1][i] += fy;
forces[1][j] -= fy`, performed in that order on the force arrays. -/
def applyPair (pf : ℕ → ℕ → ℚ × ℚ) (F : (ℕ → ℚ) × (ℕ → ℚ)) (p : ℕ × ℕ) :
    (ℕ → ℚ) × (ℕ → ℚ) :=
  let f := pf p.1 p.2
  let fx1 : ℕ → ℚ := fun m => if m = p.1 then F.1 m + f.1 else F.1 m
  let fx2 : ℕ → ℚ := fun m => if m = p.2 then fx1 m - f.1 else fx1 m
  let fy1 : ℕ → ℚ := fun m => if m = p.1 then F.2 m + f.2 else F.2 m
  let fy2 : ℕ → ℚ := fun m => if m = p.2 then fy1 m - f.2 else fy1 m
  (fx2, fy2)

/-- Modelled from the spec for the same-cell case: the ordered particle pairs
`(i, j)` examined for a cell pair `(b1, b2)` of the stencil.  For two
distinct cells every `i` of `b1` is paired with every `j` of `b2` (the loop
of `state.cpp` lines 170-171); within one cell the unordered pair set is
visited once by pairing only `i < j` (spec section 4.1: "only pairing
particle index `j > i` within the same cell"). -/
def pairsFor (nd : ℕ) (l : ℚ) (n : ℕ) (pos0 pos1 : ℕ → ℚ) (b1 b2 : Cell nd) :
    List (ℕ × ℕ) :=
  if b1 = b2 then
    (partsOfBox nd l n pos0 pos1 b1).flatMap (fun i =>
      ((partsOfBox nd l n pos0 pos1 b1).filter (fun j => i < j)).map (fun j => (i, j)))
  else
    (partsOfBox nd l n pos0 pos1 b1).flatMap (fun i =>
      (partsOfBox nd l n pos0 pos1 b2).map (fun j => (i, j)))

/-- The ordered pairs visited by the cell iteration of `calcInternalForces`
(`state.cpp` lines 168-171): every cell `b1`, every neighbor `b2` of its
stencil, every `i` of `b1` paired with the particles of `b2`. -/
def pairList (nd : ℕ) (l : ℚ) (n : ℕ) (pos0 pos1 : ℕ → ℚ) : List (ℕ × ℕ) :=
  (cellsList nd).flatMap (fun b1 =>
    (stencil nd b1).flatMap (fun b2 => pairsFor nd l n pos0 pos1 b1 b2))

/-- `State::calcInternalForces` (`state.cpp` lines 155-193): zero the force
arrays, rebuild the spatial index from the current positions, and accumulate
the harmonic-sphere pair forces over the cell/stencil pair iteration. -/
def calcInternalForces (M : MathFns) (P : Params) (pos0 pos1 : ℕ → ℚ) :
    (ℕ → ℚ) × (ℕ → ℚ) :=
  (pairList P.n_div (cellSide P) P.n_parts pos0 pos1).foldl
    (applyPair (fun i j => pairForce M P.pot_strength P.len
      (pos0 i) (pos1 i) (pos0 j) (pos1 j)))
    (fun _ => 0, fun _ => 0)

/-- Contribution of the visit of the ordered pair `p` to the x-force of
particle `m`: `+fx` if `m` is the first member, `-fx` if the second. -/
def contribX (pf : ℕ → ℕ → ℚ × ℚ) (m : ℕ) (p : ℕ × ℕ) : ℚ :=
  (if m = p.1 then (pf p.1 p.2).1 else 0) - (if m = p.2 then (pf p.1 p.2).1 else 0)

/-- Contribution of the visit of the ordered pair `p` to the y-force of
particle `m`. -/
def contribY (pf : ℕ → ℕ → ℚ × ℚ) (m : ℕ) (p : ℕ × ℕ) : ℚ :=
  (if m = p.1 then (pf p.1 p.2).2 else 0) - (if m = p.2 then (pf p.1 p.2).2 else 0)

/-- The spec's reference computation (spec section 8, "Pair-counting
invariant"): a brute-force all-pairs scan over the unordered pairs
`{i, j}`, `i < j`, with minimum-image displacements and the same pair force
law, each visited pair updating both members. -/
def bruteForces (M : MathFns) (P : Params) (pos0 pos1 : ℕ → ℚ) :
    (ℕ → ℚ) × (ℕ → ℚ) :=
  let pf := fun i j => pairForce M P.pot_strength P.len
    (pos0 i) (pos1 i) (pos0 j) (pos1 j)
  (fun m => ∑ p ∈ (Finset.range P.n_parts ×ˢ Finset.range P.n_parts).filter
      (fun p => p.1 < p.2), contribX pf m p,
   fun m => ∑ p ∈ (Finset.range P.n_parts ×ˢ Finset.range P.n_parts).filter
      (fun p => p.1 < p.2), contribY pf m p)

/-- `State::enforcePBC` (`state.cpp` lines 198-204): wrap every stored
position coordinate into `[0, len)` and every stored angle into
`[0, 2*M_PI)` with the canonical non-negative wrap `pbc`. -/
def enforcePBC (P : Params) (s : State) : State :=
  { s with
    positions0 := fun i => if i < P.n_parts then pbc (s.positions0 i) P.len
      else s.positions0 i
    positions1 := fun i => if i < P.n_parts then pbc (s.positions1 i) P.len
      else s.positions1 i
    angles := fun i => if i < P.n_parts then pbc (s.angles i) twoPi
      else s.angles i }

/-- The scalar path of `State::evolve` before the final `enforcePBC`
(`state.cpp` lines 128-145 of the first revision, identical in the second):
internal forces, then per particle
`x += dt*(fx + activity*cos θ) + noiseTemp`, `y += dt*(fy + activity*sin θ)
+ noiseTemp`, `θ += noiseAngle`, with `sincos` evaluated at the pre-update
angle.  Each particle consumes three fresh draws of the Gaussian stream `g`
in order (x-noise, y-noise, angle-noise), scaled by the respective standard
deviations. -/
def evolveScalarPre (M : MathFns) (P : Params) (g : ℕ → ℚ) (s : State) : State :=
  let F := calcInternalForces M P s.positions0 s.positions1
  let c := s.rngCount
  { positions0 := fun i => if i < P.n_parts then
      s.positions0 i + P.dt * (F.1 i + P.activity * M.cos (s.angles i))
        + stddevTemp M P * g (c + 3 * i) else s.positions0 i
    positions1 := fun i => if i < P.n_parts then
      s.positions1 i + P.dt * (F.2 i + P.activity * M.sin (s.angles i))
        + stddevTemp M P * g (c + 3 * i + 1) else s.positions1 i
    angles := fun i => if i < P.n_parts then
      s.angles i + stddevRot M P * g (c + 3 * i + 2) else s.angles i
    forces0 := F.1
    forces1 := F.2
    rngCount := c + 3 * P.n_parts }

/-- The scalar path of `State::evolve`, wrap included. -/
def evolveScalar (M : MathFns) (P : Params) (g : ℕ → ℚ) (s : State) : State :=
  enforcePBC P (evolveScalarPre M P g s)

/-- The MKL path of `State::evolve` of the FIRST revision before the final
`enforcePBC` (`state.cpp` lines 107-127): positions are updated with the
dt-scaled activity and forces, then three blocks of `n_parts` Gaussian
values are drawn (`aux_x` and `aux_y` with `stddev_temp`, `aux_angle` with
`stddev_rot`), `aux_x` and `aux_y` are added to the positions, and then —
as written at line 127 — `aux_x` (not `aux_angle`) is added to the angles:
`vdAdd(n_parts, angles.data(), aux_x.data(), angles.data())`. -/
def evolveMklV1Pre (M : MathFns) (P : Params) (g : ℕ → ℚ) (s : State) : State :=
  let F := calcInternalForces M P s.positions0 s.positions1
  let c := s.rngCount
  let n := P.n_parts
  { positions0 := fun i => if i < n then
      s.positions0 i + P.dt * (F.1 i + P.activity * M.cos (s.angles i))
        + stddevTemp M P * g (c + i) else s.positions0 i
    positions1 := fun i => if i < n then
      s.positions1 i + P.dt * (F.2 i + P.activity * M.sin (s.angles i))
        + stddevTemp M P * g (c + n + i) else s.positions1 i
    angles := fun i => if i < n then
      s.angles i + stddevTemp M P * g (c + i) else s.angles i
    forces0 := F.1
    forces1 := F.2
    rngCount := c + 3 * n }

/-- The MKL path of `State::evolve` of the first revision, wrap included. -/
def evolveMklV1 (M : MathFns) (P : Params) (g : ℕ → ℚ) (s : State) : State :=
  enforcePBC P (evolveMklV1Pre M P g s)

/-- The MKL path of `State::evolve` of the SECOND revision before the final
`enforcePBC` (`state.cpp` lines 310-340 of that revision): three blocks of
`n_parts` Gaussian values are drawn (`ran_num_x`, `ran_num_y` with
`stddev_temp`, `ran_num_angle` with `stddev_rot`), then per particle
`x += dt*(fx + activity*cos θ) + ran_num_x[i]`, `y += dt*(fy +
activity*sin θ) + ran_num_y[i]`, `θ += ran_num_angle[i]`. -/
def evolveMklV2Pre (M : MathFns) (P : Params) (g : ℕ → ℚ) (s : State) : State :=
  let F := calcInternalForces M P s.positions0 s.positions1
  let c := s.rngCount
  let n := P.n_parts
  { positions0 := fun i => if i < n then
      s.positions0 i + P.dt * (F.1 i + P.activity * M.cos (s.angles i))
        + stddevTemp M P * g (c + i) else s.positions0 i
    positions1 := fun i => if i < n then
      s.positions1 i + P.dt * (F.2 i + P.activity * M.sin (s.angles i))
        + stddevTemp M P * g (c + n + i) else s.positions1 i
    angles := fun i => if i < n then
      s.angles i + stddevRot M P * g (c + 2 * n + i) else s.angles i
    forces0 := F.1
    forces1 := F.2
    rngCount := c + 3 * n }

/-- The MKL path of `State::evolve` of the second revision, wrap included. -/
def evolveMklV2 (M : MathFns) (P : Params) (g : ℕ → ℚ) (s : State) : State :=
  enforcePBC P (evolveMklV2Pre M P g s)

/-- The scalar constructor path (`state.cpp` lines 86-95, identical in both
revisions): per particle, three consecutive draws of the generator give
`x = rndPos`, `y = rndPos`, `θ = rndAngle`; `u` is the unit-uniform stream
of the generator, so a draw of `uniform_real_distribution(0, a)` is `a`
times the unit draw.  Forces are zero-initialized (lines 69-70). -/
def initScalar (P : Params) (u : ℕ → ℚ) : State :=
  { positions0 := fun i => if i < P.n_parts then P.len * u (3 * i) else 0
    positions1 := fun i => if i < P.n_parts then P.len * u (3 * i + 1) else 0
    angles := fun i => if i < P.n_parts then twoPi * u (3 * i + 2) else 0
    forces0 := fun _ => 0
    forces1 := fun _ => 0
    rngCount := 0 }

/-- The MKL constructor path of the FIRST revision (`state.cpp` lines
72-84): three blocks of `n_parts` uniform draws fill `positions[0]` in
`[0, len)`, `positions[1]` in `[0, len)` and `angles` in `[0, 2π)`;
forces are zero-initialized. -/
def initMklV1 (P : Params) (u : ℕ → ℚ) : State :=
  { positions0 := fun i => if i < P.n_parts then P.len * u i else 0
    positions1 := fun i => if i < P.n_parts then P.len * u (P.n_parts + i) else 0
    angles := fun i => if i < P.n_parts then twoPi * u (2 * P.n_parts + i) else 0
    forces0 := fun _ => 0
    forces1 := fun _ => 0
    rngCount := 0 }

/-- The MKL constructor path of the SECOND revision (`state.cpp` lines
275-287 of that revision): the same two blocks of uniform draws fill the
positions, but the third block of uniform `[0, 2π)` draws is written into
the auxiliary buffer `ran_num_angle` — `angles` itself is only resized
(value-initialized to zero) and never filled. -/
def initMklV2 (P : Params) (u : ℕ → ℚ) : State :=
  { positions0 := fun i => if i < P.n_parts then P.len * u i else 0
    positions1 := fun i => if i < P.n_parts then P.len * u (P.n_parts + i) else 0
    angles := fun _ => 0
    forces0 := fun _ => 0
    forces1 := fun _ => 0
    rngCount := 0 }

/-- Iterated scalar evolution: the trajectory of a constructed instance
driven by its own Gaussian stream. -/
def trajectory (M : MathFns) (P : Params) (g : ℕ → ℚ) (s : State) : ℕ → State
  | 0 => s
  | k + 1 => evolveScalar M P g (trajectory M P g s k)

/-- One pair visit changes the x-force of particle `m` by exactly the
signed contribution `contribX`. -/
theorem applyPair_fst (pf : ℕ → ℕ → ℚ × ℚ) (F : (ℕ → ℚ) × (ℕ → ℚ)) (p : ℕ × ℕ)
    (m : ℕ) : (applyPair pf F p).1 m = F.1 m + contribX pf m p := by
  rcases p with ⟨i, j⟩
  by_cases h1 : m = i <;> by_cases h2 : m = j <;> by_cases h3 : i = j <;>
    simp_all [applyPair, contribX] <;> ring

/-- One pair visit changes the y-force of particle `m` by exactly the
signed contribution `contribY`. -/
theorem applyPair_snd (pf : ℕ → ℕ → ℚ × ℚ) (F : (ℕ → ℚ) × (ℕ → ℚ)) (p : ℕ × ℕ)
    (m : ℕ) : (applyPair pf F p).2 m = F.2 m + contribY pf m p := by
  rcases p with ⟨i, j⟩
  by_cases h1 : m = i <;> by_cases h2 : m = j <;> by_cases h3 : i = j <;>
    simp_all [applyPair, contribY] <;> ring

/-- The force fold is the sum of the per-pair contributions (x component). -/
theorem foldl_applyPair_fst (pf : ℕ → ℕ → ℚ × ℚ) (m : ℕ) :
    ∀ (ps : List (ℕ × ℕ)) (F : (ℕ → ℚ) × (ℕ → ℚ)),
      (ps.foldl (applyPair pf) F).1 m = F.1 m + ((ps.map (contribX pf m)).sum)
  | [], F => by simp
  | p :: ps, F => by
    rw [List.foldl_cons, foldl_applyPair_fst pf m ps, applyPair_fst]
    simp [add_assoc]

/-- The force fold is the sum of the per-pair contributions (y component). -/
theorem foldl_applyPair_snd (pf : ℕ → ℕ → ℚ × ℚ) (m : ℕ) :
    ∀ (ps : List (ℕ × ℕ)) (F : (ℕ → ℚ) × (ℕ → ℚ)),
      (ps.foldl (applyPair pf) F).2 m = F.2 m + ((ps.map (contribY pf m)).sum)
  | [], F => by simp
  | p :: ps, F => by
    rw [List.foldl_cons, foldl_applyPair_snd pf m ps, applyPair_snd]
    simp [add_assoc]

/-- Members of a cell's particle list are live particle indices. -/
theorem partsOfBox_lt (nd : ℕ) (l : ℚ) (n : ℕ) (pos0 pos1 : ℕ → ℚ) (b : Cell nd)
    (i : ℕ) (hi : i ∈ partsOfBox nd l n pos0 pos1 b) : i < n := by
  simp only [partsOfBox, List.mem_filter, List.mem_range] at hi
  exact hi.1

/-- Every visited ordered pair consists of live particle indices. -/
theorem pairList_lt (nd : ℕ) (l : ℚ) (n : ℕ) (pos0 pos1 : ℕ → ℚ) (p : ℕ × ℕ)
    (hp : p ∈ pairList nd l n pos0 pos1) : p.1 < n ∧ p.2 < n := by
  simp only [pairList, List.mem_flatMap] at hp
  obtain ⟨b1, -, b2, -, hp⟩ := hp
  rw [pairsFor] at hp
  by_cases h : b1 = b2 <;> simp only [h, if_true, if_false, List.mem_flatMap,
    List.mem_map, List.mem_filter] at hp
  · obtain ⟨i, hi, j, hj, rfl⟩ := hp
    exact ⟨partsOfBox_lt _ _ _ _ _ _ _ hi, partsOfBox_lt _ _ _ _ _ _ _ hj.1⟩
  · obtain ⟨i, hi, j, hj, rfl⟩ := hp
    exact ⟨partsOfBox_lt _ _ _ _ _ _ _ hi, partsOfBox_lt _ _ _ _ _ _ _ hj⟩

/-- A single visited pair with both members among the first `n` indices
contributes zero to the total x-force over those indices. -/
theorem sum_contribX_eq_zero (pf : ℕ → ℕ → ℚ × ℚ) (n : ℕ) (p : ℕ × ℕ)
    (h1 : p.1 < n) (h2 : p.2 < n) :
    ∑ m ∈ Finset.range n, contribX pf m p = 0 := by
  simp only [contribX]
  rw [Finset.sum_sub_distrib, Finset.sum_ite_eq' (Finset.range n) p.1,
    Finset.sum_ite_eq' (Finset.range n) p.2]
  simp [Finset.mem_range.2 h1, Finset.mem_range.2 h2]

/-- A single visited pair with both members among the first `n` indices
contributes zero to the total y-force over those indices. -/
theorem sum_contribY_eq_zero (pf : ℕ → ℕ → ℚ × ℚ) (n : ℕ) (p : ℕ × ℕ)
    (h1 : p.1 < n) (h2 : p.2 < n) :
    ∑ m ∈ Finset.range n, contribY pf m p = 0 := by
  simp only [contribY]
  rw [Finset.sum_sub_distrib, Finset.sum_ite_eq' (Finset.range n) p.1,
    Finset.sum_ite_eq' (Finset.range n) p.2]
  simp [Finset.mem_range.2 h1, Finset.mem_range.2 h2]

/-- Summing a list of per-pair contributions over all live particles gives
zero when each single pair sums to zero. -/
theorem sum_range_list_contrib_zero (n : ℕ) (g : ℕ → ℕ × ℕ → ℚ) :
    ∀ ps : List (ℕ × ℕ), (∀ p ∈ ps, ∑ m ∈ Finset.range n, g m p = 0) →
      ∑ m ∈ Finset.range n, ((ps.map (g m)).sum) = 0
  | [], _ => by simp
  | p :: ps, h => by
    simp only [List.map_cons, List.sum_cons, Finset.sum_add_distrib]
    rw [h p (List.mem_cons_self p ps),
      sum_range_list_contrib_zero n g ps (fun q hq => h q (List.mem_cons_of_mem p hq))]
    simp

/-- Claim C6: in every evaluated pair visit the force contribution
subtracted from particle `j` is the exact negation (the same `fx`, `fy`
values) of the contribution added to particle `i`; consequently the
componentwise sum over all particles of the internal forces computed by
`calcInternalForces` is zero — exactly, in the exact-arithmetic model. -/
theorem claim_C6_newton_third_law_zero_total_force (M : MathFns) (P : Params)
    (pos0 pos1 : ℕ → ℚ) :
    (∀ (F : (ℕ → ℚ) × (ℕ → ℚ)) (i j : ℕ), i ≠ j →
      (applyPair (fun a b => pairForce M P.pot_strength P.len
          (pos0 a) (pos1 a) (pos0 b) (pos1 b)) F (i, j)).1 i =
        F.1 i + (pairForce M P.pot_strength P.len (pos0 i) (pos1 i) (pos0 j) (pos1 j)).1 ∧
      (applyPair (fun a b => pairForce M P.pot_strength P.len
          (pos0 a) (pos1 a) (pos0 b) (pos1 b)) F (i, j)).1 j =
        F.1 j - (pairForce M P.pot_strength P.len (pos0 i) (pos1 i) (pos0 j) (pos1 j)).1 ∧
      (applyPair (fun a b => pairForce M P.pot_strength P.len
          (pos0 a) (pos1 a) (pos0 b) (pos1 b)) F (i, j)).2 i =
        F.2 i + (pairForce M P.pot_strength P.len (pos0 i) (pos1 i) (pos0 j) (pos1 j)).2 ∧
      (applyPair (fun a b => pairForce M P.pot_strength P.len
          (pos0 a) (pos1 a) (pos0 b) (pos1 b)) F (i, j)).2 j =
        F.2 j - (pairForce M P.pot_strength P.len (pos0 i) (pos1 i) (pos0 j) (pos1 j)).2) ∧
    (∑ m ∈ Finset.range P.n_parts, (calcInternalForces M P pos0 pos1).1 m) = 0 ∧
    (∑ m ∈ Finset.range P.n_parts, (calcInternalForces M P pos0 pos1).2 m) = 0 := by
  refine ⟨fun F i j hij => ?_, ?_, ?_⟩
  · refine ⟨?_, ?_, ?_, ?_⟩
    · rw [applyPair_fst, contribX]
      simp [hij, Ne.symm hij]
    · rw [applyPair_fst, contribX]
      simp [hij, Ne.symm hij]
      ring
    · rw [applyPair_snd, contribY]
      simp [hij, Ne.symm hij]
    · rw [applyPair_snd, contribY]
      simp [hij, Ne.symm hij]
      ring
  · rw [show (calcInternalForces M P pos0 pos1).1 =
      fun m => (0 : ℚ) + (((pairList P.n_div (cellSide P) P.n_parts pos0 pos1).map
        (contribX (fun a b => pairForce M P.pot_strength P.len
          (pos0 a) (pos1 a) (pos0 b) (pos1 b)) m)).sum) from
        funext fun m => foldl_applyPair_fst _ m _ _]
    simp only [zero_add]
    exact sum_range_list_contrib_zero _ _ _ (fun p hp =>
      sum_contribX_eq_zero _ _ p (pairList_lt _ _ _ _ _ p hp).1
        (pairList_lt _ _ _ _ _ p hp).2)
  · rw [show (calcInternalForces M P pos0 pos1).2 =
      fun m => (0 : ℚ) + (((pairList P.n_div (cellSide P) P.n_parts pos0 pos1).map
        (contribY (fun a b => pairForce M P.pot_strength P.len
          (pos0 a) (pos1 a) (pos0 b) (pos1 b)) m)).sum) from
        funext fun m => foldl_applyPair_snd _ m _ _]
    simp only [zero_add]
    exact sum_range_list_contrib_zero _ _ _ (fun p hp =>
      sum_contribY_eq_zero _ _ p (pairList_lt _ _ _ _ _ p hp).1
        (pairList_lt _ _ _ _ _ p hp).2)

/-- Witness for C6 at a concrete pair visit. -/
theorem claim_C6_newton_third_law_zero_total_force_witness :
    (applyPair (fun a b => pairForce mathTable paramsB.pot_strength paramsB.len
        (zeroState.positions0 a) (zeroState.positions1 a)
        (zeroState.positions0 b) (zeroState.positions1 b))
      (fun _ => 0, fun _ => 0) (0, 1)).1 0 =
      (fun _ => (0:ℚ)) 0 + (pairForce mathTable paramsB.pot_strength paramsB.len
        (zeroState.positions0 0) (zeroState.positions1 0)
        (zeroState.positions0 1) (zeroState.positions1 1)).1 :=
  ((claim_C6_newton_third_law_zero_total_force mathTable paramsB
    zeroState.positions0 zeroState.positions1).1
    (fun _ => 0, fun _ => 0) 0 1 (by decide)).1

/-- The centered wrap expressed through the fractional part. -/
theorem pbcSym_eq_fract (x p : ℚ) (hp : p ≠ 0) :
    pbcSym x p = p * Int.fract (x / p + 1 / 2) - p / 2 := by
  rw [pbcSym, Int.fract]
  field_simp
  ring

/-- The centered wrap lands in `[-p/2, p/2)` for positive period `p`. -/
theorem pbcSym_bounds (x p : ℚ) (hp : 0 < p) :
    -(p / 2) ≤ pbcSym x p ∧ pbcSym x p < p / 2 := by
  rw [pbcSym_eq_fract x p hp.ne.symm]
  constructor
  · have := mul_nonneg hp.le (Int.fract_nonneg (x / p + 1 / 2))
    linarith
  · have := mul_lt_mul_of_pos_left (Int.fract_lt_one (x / p + 1 / 2)) hp
    linarith

/-- The centered wrap is odd, except at its left boundary `-p/2`, which is
its own mirror image. -/
theorem pbcSym_neg (x p : ℚ) (hp : 0 < p) :
    pbcSym (-x) p = -pbcSym x p ∨
      (pbcSym x p = -(p / 2) ∧ pbcSym (-x) p = -(p / 2)) := by
  have hne : p ≠ 0 := hp.ne.symm
  have hrw : -x / p + 1 / 2 = -(x / p + 1 / 2) + ((1 : ℤ) : ℚ) := by
    push_cast
    ring
  have hfr : Int.fract (-x / p + 1 / 2) = Int.fract (-(x / p + 1 / 2)) := by
    rw [hrw, Int.fract_add_int]
  by_cases h : Int.fract (x / p + 1 / 2) = 0
  · right
    constructor
    · rw [pbcSym_eq_fract x p hne, h]
      ring
    · rw [pbcSym_eq_fract (-x) p hne, hfr, Int.fract_neg_eq_zero.2 h]
      ring
  · left
    rw [pbcSym_eq_fract (-x) p hne, pbcSym_eq_fract x p hne, hfr, Int.fract_neg h]
    ring

/-- The square of the centered wrap is even in its argument. -/
theorem pbcSym_neg_sq (x p : ℚ) (hp : 0 < p) :
    pbcSym (-x) p * pbcSym (-x) p = pbcSym x p * pbcSym x p := by
  rcases pbcSym_neg x p hp with h | ⟨h1, h2⟩
  · rw [h]
    ring
  · rw [h1, h2]

/-- Per-axis cell adjacency: when the minimum-image displacement component
is smaller than the cell side, the two integer cell indices differ by
`-1`, `0` or `1` modulo the grid dimension. -/
theorem axis_adjacent (nd : ℕ) (l x y : ℚ) (hl : 0 < l)
    (h : |pbcSym (x - y) ((nd : ℚ) * l)| < l) :
    ∃ e : ℤ, (e = -1 ∨ e = 0 ∨ e = 1) ∧
      (((⌊x / l⌋ : ℤ) : ZMod nd) - ((⌊y / l⌋ : ℤ) : ZMod nd) = ((e : ℤ) : ZMod nd)) := by
  set a : ℤ := ⌊x / l⌋ with ha
  set b : ℤ := ⌊y / l⌋ with hb
  set m : ℤ := ⌊(x - y) / ((nd : ℚ) * l) + 1 / 2⌋ with hm
  have hx1 : (a : ℚ) * l ≤ x := by
    have := Int.floor_le (x / l)
    rw [← ha] at this
    exact (le_div_iff hl).1 this
  have hx2 : x < ((a : ℚ) + 1) * l := by
    have := Int.lt_floor_add_one (x / l)
    rw [← ha] at this
    have := (div_lt_iff hl).1 this
    push_cast at this ⊢
    linarith
  have hy1 : (b : ℚ) * l ≤ y := by
    have := Int.floor_le (y / l)
    rw [← hb] at this
    exact (le_div_iff hl).1 this
  have hy2 : y < ((b : ℚ) + 1) * l := by
    have := Int.lt_floor_add_one (y / l)
    rw [← hb] at this
    have := (div_lt_iff hl).1 this
    push_cast at this ⊢
    linarith
  have hdx : pbcSym (x - y) ((nd : ℚ) * l) = (x - y) - ((nd : ℚ) * l) * m := rfl
  rw [abs_lt] at h
  set E : ℤ := a - b - nd * m with hE
  have hlow : ((E : ℚ) - 1) * l < pbcSym (x - y) ((nd : ℚ) * l) := by
    rw [hdx, hE]
    push_cast
    nlinarith
  have hhigh : pbcSym (x - y) ((nd : ℚ) * l) < ((E : ℚ) + 1) * l := by
    rw [hdx, hE]
    push_cast
    nlinarith
  have hE1 : (E : ℚ) - 1 < 1 := by
    have h1 : ((E : ℚ) - 1) * l < 1 * l := by
      rw [one_mul]
      exact lt_trans hlow h.2
    exact lt_of_mul_lt_mul_right h1 hl.le
  have hE2 : (-1 : ℚ) < (E : ℚ) + 1 := by
    have h1 : (-1 : ℚ) * l < ((E : ℚ) + 1) * l := by
      rw [neg_one_mul]
      exact lt_trans h.1 hhigh
    exact lt_of_mul_lt_mul_right h1 hl.le
  have hEq1 : (E : ℚ) < 2 := by linarith
  have hEq2 : (-2 : ℚ) < (E : ℚ) := by linarith
  have hEi1 : E < 2 := by exact_mod_cast hEq1
  have hEi2 : (-2 : ℤ) < E := by exact_mod_cast hEq2
  refine ⟨E, by omega, ?_⟩
  have hab : a - b = E + (nd : ℤ) * m := by
    rw [hE]
    ring
  have hstep : (((a : ℤ) : ZMod nd) - ((b : ℤ) : ZMod nd)) = ((a - b : ℤ) : ZMod nd) := by
    push_cast
    ring
  rw [hstep, hab]
  push_cast
  rw [ZMod.natCast_self]
  ring

/-- In a grid with at least three cells per side, `1 ≠ 0` in `ZMod nd`. -/
theorem zmod_one_ne_zero (nd : ℕ) (h3 : 3 ≤ nd) : (1 : ZMod nd) ≠ 0 := by
  haveI : NeZero nd := ⟨by omega⟩
  intro h
  have h1 : ((1 : ℕ) : ZMod nd) = 0 := by
    push_cast
    exact h
  rw [ZMod.natCast_zmod_eq_zero_iff_dvd] at h1
  have := Nat.le_of_dvd (by norm_num) h1
  omega

/-- In a grid with at least three cells per side, `1 ≠ -1` in `ZMod nd`. -/
theorem zmod_one_ne_neg_one (nd : ℕ) (h3 : 3 ≤ nd) : (1 : ZMod nd) ≠ -1 := by
  haveI : NeZero nd := ⟨by omega⟩
  intro h
  have h2 : ((2 : ℕ) : ZMod nd) = 0 := by
    push_cast
    linear_combination h
  rw [ZMod.natCast_zmod_eq_zero_iff_dvd] at h2
  have := Nat.le_of_dvd (by norm_num) h2
  omega

/-- In a grid with at least three cells per side, `-1 ≠ 0` in `ZMod nd`. -/
theorem zmod_neg_one_ne_zero (nd : ℕ) (h3 : 3 ≤ nd) : (-1 : ZMod nd) ≠ 0 := by
  intro h
  exact zmod_one_ne_zero nd h3 (by linear_combination -h)

/-- The five half-stencil offsets are pairwise distinct once the grid has at
least three cells per side. -/
theorem stencilShifts_nodup (nd : ℕ) (h3 : 3 ≤ nd) : (stencilShifts nd).Nodup := by
  have h10 := zmod_one_ne_zero nd h3
  have h1m1 := zmod_one_ne_neg_one nd h3
  have hm10 := zmod_neg_one_ne_zero nd h3
  simp [stencilShifts, Prod.ext_iff, h10, h1m1, hm10, Ne.symm h10, Ne.symm h1m1,
    Ne.symm hm10]

/-- Anti-symmetry of the half-stencil: a nonzero offset and its negation are
never both in the stencil (grid at least 3 wide). -/
theorem stencilShifts_antisymm (nd : ℕ) (h3 : 3 ≤ nd) (d : Cell nd)
    (h1 : d ∈ stencilShifts nd) (h2 : -d ∈ stencilShifts nd) : d = 0 := by
  have h10 := zmod_one_ne_zero nd h3
  have h1m1 := zmod_one_ne_neg_one nd h3
  have hm10 := zmod_neg_one_ne_zero nd h3
  rcases d with ⟨d1, d2⟩
  simp only [stencilShifts, List.mem_cons, List.not_mem_nil, or_false,
    Prod.mk.injEq, Prod.neg_mk, Prod.ext_iff] at h1 h2
  have hPz : ((0 : ZMod nd), (0 : ZMod nd)) = (0 : Cell nd) := rfl
  rcases h1 with ⟨ha, hb⟩ | ⟨ha, hb⟩ | ⟨ha, hb⟩ | ⟨ha, hb⟩ | ⟨ha, hb⟩ <;>
    subst ha <;> subst hb <;>
    rcases h2 with ⟨ha, hb⟩ | ⟨ha, hb⟩ | ⟨ha, hb⟩ | ⟨ha, hb⟩ | ⟨ha, hb⟩ <;>
    first
      | rfl
      | (exfalso
         first
           | exact h10 (by linear_combination ha)
           | exact h10 (by linear_combination hb)
           | exact h10 (by linear_combination -ha)
           | exact h10 (by linear_combination -hb)
           | exact h1m1 (by linear_combination ha)
           | exact h1m1 (by linear_combination hb)
           | exact h1m1 (by linear_combination -ha)
           | exact h1m1 (by linear_combination -hb))

/-- Coverage of the half-stencil: every offset with both components in
`{-1, 0, 1}` lies in the stencil directly or after negation. -/
theorem stencilShifts_cover (nd : ℕ) (e1 e2 : ℤ)
    (he1 : e1 = -1 ∨ e1 = 0 ∨ e1 = 1) (he2 : e2 = -1 ∨ e2 = 0 ∨ e2 = 1) :
    (((e1 : ZMod nd), (e2 : ZMod nd)) : Cell nd) ∈ stencilShifts nd ∨
      (-(((e1 : ZMod nd), (e2 : ZMod nd)) : Cell nd)) ∈ stencilShifts nd := by
  rcases he1 with rfl | rfl | rfl <;> rcases he2 with rfl | rfl | rfl <;>
    [right; right; left; right; left; left; right; left; left] <;>
    push_cast <;> simp [stencilShifts, Prod.ext_iff]

/-- Summing a mapped flat map is summing the per-element sums. -/
theorem sum_map_flatMap {α β : Type} (f : α → List β) (g : β → ℚ) :
    ∀ l : List α,
      (((l.flatMap f).map g).sum) = ((l.map (fun a => (((f a).map g).sum))).sum)
  | [] => by simp
  | a :: l => by
    simp only [List.flatMap_cons, List.map_append, List.sum_append, List.map_cons,
      List.sum_cons]
    rw [sum_map_flatMap f g l]

/-- Summing a mapped filter is summing the guarded terms. -/
theorem sum_map_filter {α : Type} (q : α → Bool) (g : α → ℚ) :
    ∀ l : List α,
      (((l.filter q).map g).sum) = ((l.map (fun a => if q a then g a else 0)).sum)
  | [] => by simp
  | a :: l => by
    by_cases h : q a <;>
      simp [List.filter_cons, h, sum_map_filter q g l]

/-- A mapped `List.range` sum is a `Finset.range` sum. -/
theorem list_range_sum (f : ℕ → ℚ) :
    ∀ n : ℕ, (((List.range n).map f).sum) = ∑ i ∈ Finset.range n, f i
  | 0 => by simp
  | n + 1 => by
    rw [List.range_succ, Finset.sum_range_succ, List.map_append, List.sum_append,
      list_range_sum f n]
    simp

/-- A list sum of finset sums commutes to a finset sum of list sums. -/
theorem list_sum_finset_sum_comm {α β : Type} (s : Finset β) (F : α → β → ℚ) :
    ∀ xs : List α,
      ((xs.map (fun d => ∑ i ∈ s, F d i)).sum) = ∑ i ∈ s, ((xs.map (fun d => F d i)).sum)
  | [] => by simp
  | x :: xs => by
    simp only [List.map_cons, List.sum_cons, list_sum_finset_sum_comm s F xs,
      Finset.sum_add_distrib]

/-- Over a duplicate-free list, the sum of the terms guarded by equality
with a fixed target plus a side condition reduces to a membership test. -/
theorem sum_map_ite_nodup {α : Type} [DecidableEq α] (v : ℚ) (Q : α → Prop)
    [DecidablePred Q] (t : α) :
    ∀ xs : List α, xs.Nodup →
      ((xs.map (fun d => if d = t ∧ Q d then v else 0)).sum)
        = if t ∈ xs ∧ Q t then v else 0
  | [], _ => by simp
  | x :: xs, h => by
    have hx := (List.nodup_cons.1 h).1
    have hxs := (List.nodup_cons.1 h).2
    rw [List.map_cons, List.sum_cons, sum_map_ite_nodup v Q t xs hxs]
    by_cases hxt : x = t
    · subst hxt
      have hnot : x ∉ xs := hx
      by_cases hq : Q x
      · simp [hq, hnot]
      · simp [hq]
    · simp [hxt, Ne.symm hxt, List.mem_cons]

/-- Summing over a cell's particle list is a guarded sum over all live
particle indices. -/
theorem sum_map_partsOfBox (nd : ℕ) (l : ℚ) (n : ℕ) (pos0 pos1 : ℕ → ℚ)
    (b : Cell nd) (h : ℕ → ℚ) :
    (((partsOfBox nd l n pos0 pos1 b).map h).sum)
      = ∑ i ∈ Finset.range n,
          if cellOf nd l (pos0 i) (pos1 i) = b then h i else 0 := by
  rw [partsOfBox, sum_map_filter, list_range_sum]
  refine Finset.sum_congr rfl fun i _ => ?_
  by_cases hc : cellOf nd l (pos0 i) (pos1 i) = b <;> simp [hc]

/-- Summing the contributions of one stencil cell pair is a doubly guarded
double sum over all ordered index pairs. -/
theorem sum_map_pairsFor (nd : ℕ) (l : ℚ) (n : ℕ) (pos0 pos1 : ℕ → ℚ)
    (b1 b2 : Cell nd) (g : ℕ × ℕ → ℚ) :
    (((pairsFor nd l n pos0 pos1 b1 b2).map g).sum)
      = ∑ i ∈ Finset.range n, ∑ j ∈ Finset.range n,
          if cellOf nd l (pos0 i) (pos1 i) = b1 ∧ cellOf nd l (pos0 j) (pos1 j) = b2
              ∧ (b1 = b2 → i < j) then g (i, j) else 0 := by
  rw [pairsFor]
  by_cases hb : b1 = b2
  · subst hb
    rw [if_pos rfl, sum_map_flatMap, sum_map_partsOfBox]
    refine Finset.sum_congr rfl fun i _ => ?_
    by_cases hci : cellOf nd l (pos0 i) (pos1 i) = b1
    · rw [if_pos hci, List.map_map]
      rw [show (g ∘ fun j => (i, j)) = fun j => g (i, j) from rfl]
      rw [sum_map_filter, sum_map_partsOfBox]
      refine Finset.sum_congr rfl fun j _ => ?_
      by_cases hcj : cellOf nd l (pos0 j) (pos1 j) = b1 <;>
        by_cases hij : i < j <;> simp [hci, hcj, hij]
    · rw [if_neg hci, eq_comm]
      refine Finset.sum_eq_zero fun j _ => ?_
      simp [hci]
  · rw [if_neg hb, sum_map_flatMap, sum_map_partsOfBox]
    refine Finset.sum_congr rfl fun i _ => ?_
    by_cases hci : cellOf nd l (pos0 i) (pos1 i) = b1
    · rw [if_pos hci, List.map_map]
      rw [show (g ∘ fun j => (i, j)) = fun j => g (i, j) from rfl]
      rw [sum_map_partsOfBox]
      refine Finset.sum_congr rfl fun j _ => ?_
      by_cases hcj : cellOf nd l (pos0 j) (pos1 j) = b2 <;> simp [hci, hcj, hb]
    · rw [if_neg hci, eq_comm]
      refine Finset.sum_eq_zero fun j _ => ?_
      simp [hci]

/-- A sum over the whole `ZMod nd` is a sum over the numerals below `nd`. -/
theorem zmod_sum_range (nd : ℕ) [NeZero nd] (h : ZMod nd → ℚ) :
    ∑ c : ZMod nd, h c = ∑ a ∈ Finset.range nd, h ((a : ℕ) : ZMod nd) := by
  have hinj : ∀ a ∈ Finset.range nd, ∀ b ∈ Finset.range nd,
      ((a : ℕ) : ZMod nd) = ((b : ℕ) : ZMod nd) → a = b := by
    intro a ha b hb hab
    have hv := congrArg ZMod.val hab
    rwa [ZMod.val_cast_of_lt (Finset.mem_range.1 ha),
      ZMod.val_cast_of_lt (Finset.mem_range.1 hb)] at hv
  have himg : (Finset.range nd).image (fun a : ℕ => ((a : ℕ) : ZMod nd))
      = Finset.univ := by
    refine Finset.eq_univ_of_forall fun c => ?_
    exact Finset.mem_image.2 ⟨c.val, Finset.mem_range.2 (ZMod.val_lt c),
      ZMod.natCast_zmod_val c⟩
  rw [← himg, Finset.sum_image hinj]

/-- Summing over the raster list of all cells is summing over the cell
type. -/
theorem sum_map_cellsList (nd : ℕ) [NeZero nd] (A : Cell nd → ℚ) :
    (((cellsList nd).map A).sum) = ∑ c : Cell nd, A c := by
  rw [cellsList, sum_map_flatMap]
  have hinner : ∀ a : ℕ,
      ((((List.range nd).map
          (fun b : ℕ => ((((a : ℕ) : ZMod nd), ((b : ℕ) : ZMod nd)) : Cell nd))).map A).sum)
        = ∑ b ∈ Finset.range nd, A (((a : ℕ) : ZMod nd), ((b : ℕ) : ZMod nd)) := fun a => by
    rw [List.map_map]
    exact list_range_sum _ nd
  rw [show (fun a : ℕ => ((((List.range nd).map
        (fun b : ℕ => ((((a : ℕ) : ZMod nd), ((b : ℕ) : ZMod nd)) : Cell nd))).map A).sum))
      = (fun a : ℕ => ∑ b ∈ Finset.range nd, A (((a : ℕ) : ZMod nd), ((b : ℕ) : ZMod nd)))
    from funext hinner]
  rw [list_range_sum, Fintype.sum_prod_type, zmod_sum_range nd]
  refine Finset.sum_congr rfl fun a _ => ?_
  rw [zmod_sum_range nd]

/-- The condition under which the cell-list iteration visits the ordered
pair `(i, j)`: the cell of `j` is in the half-stencil of the cell of `i`,
and within one cell only the order `i < j` is taken. -/
def genPairCond (nd : ℕ) (l : ℚ) (pos0 pos1 : ℕ → ℚ) (p : ℕ × ℕ) : Prop :=
  stencilRel nd (cellOf nd l (pos0 p.1) (pos1 p.1))
      (cellOf nd l (pos0 p.2) (pos1 p.2)) ∧
  (cellOf nd l (pos0 p.1) (pos1 p.1) = cellOf nd l (pos0 p.2) (pos1 p.2) →
    p.1 < p.2)

/-- Visiting is decidable. -/
instance (nd : ℕ) (l : ℚ) (pos0 pos1 : ℕ → ℚ) (p : ℕ × ℕ) :
    Decidable (genPairCond nd l pos0 pos1 p) := by
  unfold genPairCond
  infer_instance

/-- Master reduction: the sum of any quantity over the cell-list pair
iteration equals the guarded double sum over all ordered index pairs of
live particles, the guard being the visiting condition. -/
theorem pairList_sum (nd : ℕ) (l : ℚ) (n : ℕ) (pos0 pos1 : ℕ → ℚ)
    (h3 : 3 ≤ nd) (g : ℕ × ℕ → ℚ) :
    (((pairList nd l n pos0 pos1).map g).sum)
      = ∑ i ∈ Finset.range n, ∑ j ∈ Finset.range n,
          if genPairCond nd l pos0 pos1 (i, j) then g (i, j) else 0 := by
  haveI : NeZero nd := ⟨by omega⟩
  rw [pairList, sum_map_flatMap]
  have hcell : ∀ b1 : Cell nd,
      ((((stencil nd b1).flatMap
          (fun b2 => pairsFor nd l n pos0 pos1 b1 b2)).map g).sum)
        = ∑ i ∈ Finset.range n, ∑ j ∈ Finset.range n,
            (((stencilShifts nd).map (fun d =>
              if cellOf nd l (pos0 i) (pos1 i) = b1 ∧
                  cellOf nd l (pos0 j) (pos1 j) = b1 + d ∧ (b1 = b1 + d → i < j)
                then g (i, j) else 0)).sum) := by
    intro b1
    rw [stencil, sum_map_flatMap, List.map_map]
    simp only [Function.comp_def]
    rw [show (fun d : Cell nd =>
          (((pairsFor nd l n pos0 pos1 b1 (b1 + d)).map g).sum))
        = (fun d : Cell nd => ∑ i ∈ Finset.range n, ∑ j ∈ Finset.range n,
            if cellOf nd l (pos0 i) (pos1 i) = b1 ∧
                cellOf nd l (pos0 j) (pos1 j) = b1 + d ∧ (b1 = b1 + d → i < j)
              then g (i, j) else 0)
      from funext fun d => sum_map_pairsFor nd l n pos0 pos1 b1 (b1 + d) g]
    rw [list_sum_finset_sum_comm]
    refine Finset.sum_congr rfl fun i _ => ?_
    rw [list_sum_finset_sum_comm]
  rw [show (fun b1 : Cell nd => (((stencil nd b1).flatMap
        (fun b2 => pairsFor nd l n pos0 pos1 b1 b2)).map g).sum)
      = (fun b1 : Cell nd => ∑ i ∈ Finset.range n, ∑ j ∈ Finset.range n,
          (((stencilShifts nd).map (fun d =>
            if cellOf nd l (pos0 i) (pos1 i) = b1 ∧
                cellOf nd l (pos0 j) (pos1 j) = b1 + d ∧ (b1 = b1 + d → i < j)
              then g (i, j) else 0)).sum))
    from funext hcell]
  rw [sum_map_cellsList, Finset.sum_comm]
  refine Finset.sum_congr rfl fun i _ => ?_
  rw [Finset.sum_comm]
  refine Finset.sum_congr rfl fun j _ => ?_
  rw [Finset.sum_eq_single (cellOf nd l (pos0 i) (pos1 i))]
  · have hmorph : ∀ d ∈ stencilShifts nd,
        (if cellOf nd l (pos0 i) (pos1 i) = cellOf nd l (pos0 i) (pos1 i) ∧
            cellOf nd l (pos0 j) (pos1 j) = cellOf nd l (pos0 i) (pos1 i) + d ∧
            (cellOf nd l (pos0 i) (pos1 i) = cellOf nd l (pos0 i) (pos1 i) + d → i < j)
          then g (i, j) else 0)
        = (if d = (cellOf nd l (pos0 j) (pos1 j) - cellOf nd l (pos0 i) (pos1 i)) ∧
            (cellOf nd l (pos0 i) (pos1 i) = cellOf nd l (pos0 i) (pos1 i) + d → i < j)
          then g (i, j) else 0) := by
      intro d _
      refine if_congr ?_ rfl rfl
      constructor
      · rintro ⟨-, h2, h3x⟩
        exact ⟨by rw [h2]; ring, h3x⟩
      · rintro ⟨h1, h2⟩
        exact ⟨rfl, by rw [h1]; ring, h2⟩
    rw [List.map_congr_left hmorph, sum_map_ite_nodup _ _ _ _ (stencilShifts_nodup nd h3)]
    have hQ : (cellOf nd l (pos0 i) (pos1 i) =
          cellOf nd l (pos0 i) (pos1 i) +
            (cellOf nd l (pos0 j) (pos1 j) - cellOf nd l (pos0 i) (pos1 i)) → i < j)
        ↔ (cellOf nd l (pos0 i) (pos1 i) = cellOf nd l (pos0 j) (pos1 j) → i < j) := by
      rw [show cellOf nd l (pos0 i) (pos1 i) +
          (cellOf nd l (pos0 j) (pos1 j) - cellOf nd l (pos0 i) (pos1 i))
        = cellOf nd l (pos0 j) (pos1 j) from by ring]
    have hiff : ((cellOf nd l (pos0 j) (pos1 j) - cellOf nd l (pos0 i) (pos1 i))
          ∈ stencilShifts nd ∧
        (cellOf nd l (pos0 i) (pos1 i) = cellOf nd l (pos0 i) (pos1 i) +
            (cellOf nd l (pos0 j) (pos1 j) - cellOf nd l (pos0 i) (pos1 i)) → i < j))
        ↔ genPairCond nd l pos0 pos1 (i, j) := by
      unfold genPairCond stencilRel
      exact and_congr Iff.rfl hQ
    by_cases hgp : genPairCond nd l pos0 pos1 (i, j)
    · rw [if_pos (hiff.2 hgp), if_pos hgp]
    · rw [if_neg (fun hc => hgp (hiff.1 hc)), if_neg hgp]
  · intro b1 _ hb1
    refine List.sum_eq_zero fun q hq => ?_
    simp only [List.mem_map] at hq
    obtain ⟨d, -, rfl⟩ := hq
    rw [if_neg]
    rintro ⟨h1, -⟩
    exact hb1 h1.symm
  · intro habs
    exact absurd (Finset.mem_univ _) habs

/-- When the minimum-image squared distance is at least the cutoff, the
pair force vanishes. -/
theorem pairForce_zero_of_far (M : MathFns) (k L xi yi xj yj : ℚ)
    (h : 1 ≤ pbcSym (xi - xj) L * pbcSym (xi - xj) L
        + pbcSym (yi - yj) L * pbcSym (yi - yj) L) :
    pairForce M k L xi yi xj yj = (0, 0) := by
  rw [pairForce]
  simp only []
  rw [if_neg]
  nlinarith [mul_self_nonneg (pbcSym (xi - xj) L), mul_self_nonneg (pbcSym (yi - yj) L)]

/-- Swapping the two particles of a pair evaluation negates the force
contribution, or both orientations are outside the cutoff and give zero
(the latter covers the `-L/2` boundary of the centered wrap, which for a
box of side at least 3 lies beyond the unit cutoff). -/
theorem pairForce_swap (M : MathFns) (k L xi yi xj yj : ℚ) (hL : 3 ≤ L) :
    pairForce M k L xj yj xi yi = -(pairForce M k L xi yi xj yj) ∨
      (pairForce M k L xi yi xj yj = (0, 0) ∧ pairForce M k L xj yj xi yi = (0, 0)) := by
  have hp : (0 : ℚ) < L := by linarith
  have hxm : xj - xi = -(xi - xj) := by ring
  have hym : yj - yi = -(yi - yj) := by ring
  rcases pbcSym_neg (xi - xj) L hp with hx | hx
  · rcases pbcSym_neg (yi - yj) L hp with hy | hy
    · left
      rw [pairForce, pairForce]
      simp only []
      rw [hxm, hym, hx, hy,
        show -pbcSym (xi - xj) L * -pbcSym (xi - xj) L
            + -pbcSym (yi - yj) L * -pbcSym (yi - yj) L
          = pbcSym (xi - xj) L * pbcSym (xi - xj) L
            + pbcSym (yi - yj) L * pbcSym (yi - yj) L from by ring]
      by_cases hc : (pbcSym (xi - xj) L * pbcSym (xi - xj) L
          + pbcSym (yi - yj) L * pbcSym (yi - yj) L) *
          (1 - (pbcSym (xi - xj) L * pbcSym (xi - xj) L
            + pbcSym (yi - yj) L * pbcSym (yi - yj) L)) > 0
      · rw [if_pos hc, if_pos hc, Prod.neg_mk, Prod.mk.injEq]
        constructor <;> ring
      · rw [if_neg hc, if_neg hc, Prod.neg_mk, neg_zero]
    · right
      have hyb : pbcSym (yi - yj) L * pbcSym (yi - yj) L = L / 2 * (L / 2) := by
        rw [hy.1]
        ring
      have hyb' : pbcSym (yj - yi) L * pbcSym (yj - yi) L = L / 2 * (L / 2) := by
        rw [hym, hy.2]
        ring
      constructor
      · apply pairForce_zero_of_far
        rw [hyb]
        nlinarith [mul_self_nonneg (pbcSym (xi - xj) L)]
      · apply pairForce_zero_of_far
        rw [hyb']
        nlinarith [mul_self_nonneg (pbcSym (xj - xi) L)]
  · right
    have hxb : pbcSym (xi - xj) L * pbcSym (xi - xj) L = L / 2 * (L / 2) := by
      rw [hx.1]
      ring
    have hxb' : pbcSym (xj - xi) L * pbcSym (xj - xi) L = L / 2 * (L / 2) := by
      rw [hxm, hx.2]
      ring
    constructor
    · apply pairForce_zero_of_far
      rw [hxb]
      nlinarith [mul_self_nonneg (pbcSym (yi - yj) L)]
    · apply pairForce_zero_of_far
      rw [hxb']
      nlinarith [mul_self_nonneg (pbcSym (yj - yi) L)]

/-- The x-contribution to any particle is invariant under swapping the two
members of the pair (box of side at least 3). -/
theorem contribX_swap (M : MathFns) (k L : ℚ) (pos0 pos1 : ℕ → ℚ) (hL : 3 ≤ L)
    (m i j : ℕ) :
    contribX (fun a b => pairForce M k L (pos0 a) (pos1 a) (pos0 b) (pos1 b)) m (j, i)
      = contribX (fun a b => pairForce M k L (pos0 a) (pos1 a) (pos0 b) (pos1 b)) m (i, j) := by
  rcases pairForce_swap M k L (pos0 i) (pos1 i) (pos0 j) (pos1 j) hL with h | ⟨h1, h2⟩
  · simp only [contribX, h, Prod.fst_neg]
    split_ifs <;> ring
  · simp only [contribX, h1, h2]
    simp

/-- The y-contribution to any particle is invariant under swapping the two
members of the pair (box of side at least 3). -/
theorem contribY_swap (M : MathFns) (k L : ℚ) (pos0 pos1 : ℕ → ℚ) (hL : 3 ≤ L)
    (m i j : ℕ) :
    contribY (fun a b => pairForce M k L (pos0 a) (pos1 a) (pos0 b) (pos1 b)) m (j, i)
      = contribY (fun a b => pairForce M k L (pos0 a) (pos1 a) (pos0 b) (pos1 b)) m (i, j) := by
  rcases pairForce_swap M k L (pos0 i) (pos1 i) (pos0 j) (pos1 j) hL with h | ⟨h1, h2⟩
  · simp only [contribY, h, Prod.snd_neg]
    split_ifs <;> ring
  · simp only [contribY, h1, h2]
    simp

/-- A nonvanishing pair force means the cutoff branch was taken. -/
theorem pairForce_ne_zero_cond (M : MathFns) (k L xi yi xj yj : ℚ)
    (h : pairForce M k L xi yi xj yj ≠ (0, 0)) :
    (pbcSym (xi - xj) L * pbcSym (xi - xj) L
        + pbcSym (yi - yj) L * pbcSym (yi - yj) L) *
      (1 - (pbcSym (xi - xj) L * pbcSym (xi - xj) L
        + pbcSym (yi - yj) L * pbcSym (yi - yj) L)) > 0 := by
  by_contra hc
  apply h
  rw [pairForce]
  simp only []
  rw [if_neg hc]

/-- Exactly-once visiting: a distinct pair within the unit cutoff (in
minimum image over the box `nd * l`) satisfies the visiting condition in
exactly one of its two orientations. -/
theorem genPair_exactly_one (nd : ℕ) (l L : ℚ) (pos0 pos1 : ℕ → ℚ)
    (h3 : 3 ≤ nd) (hl : 1 ≤ l) (hbox : L = (nd : ℚ) * l) (i j : ℕ) (hij : i ≠ j)
    (hcut : pbcSym (pos0 i - pos0 j) L * pbcSym (pos0 i - pos0 j) L
        + pbcSym (pos1 i - pos1 j) L * pbcSym (pos1 i - pos1 j) L < 1) :
    (genPairCond nd l pos0 pos1 (i, j) ∧ ¬genPairCond nd l pos0 pos1 (j, i)) ∨
      (¬genPairCond nd l pos0 pos1 (i, j) ∧ genPairCond nd l pos0 pos1 (j, i)) := by
  have hl0 : (0 : ℚ) < l := by linarith
  have habsx : |pbcSym (pos0 i - pos0 j) ((nd : ℚ) * l)| < l := by
    rw [← hbox]
    refine abs_lt_of_sq_lt_sq ?_ hl0.le
    have h1 : pbcSym (pos0 i - pos0 j) L ^ 2
        < l ^ 2 := by
      nlinarith [mul_self_nonneg (pbcSym (pos1 i - pos1 j) L)]
    exact h1
  have habsy : |pbcSym (pos1 i - pos1 j) ((nd : ℚ) * l)| < l := by
    rw [← hbox]
    refine abs_lt_of_sq_lt_sq ?_ hl0.le
    nlinarith [mul_self_nonneg (pbcSym (pos0 i - pos0 j) L)]
  obtain ⟨e1, he1, heq1⟩ := axis_adjacent nd l (pos0 i) (pos0 j) hl0 habsx
  obtain ⟨e2, he2, heq2⟩ := axis_adjacent nd l (pos1 i) (pos1 j) hl0 habsy
  set ci := cellOf nd l (pos0 i) (pos1 i) with hci
  set cj := cellOf nd l (pos0 j) (pos1 j) with hcj
  have hsub : ci - cj = (((e1 : ℤ) : ZMod nd), ((e2 : ℤ) : ZMod nd)) := by
    rw [hci, hcj, cellOf, cellOf]
    exact Prod.ext heq1 heq2
  by_cases hcc : ci = cj
  · rcases Nat.lt_or_ge i j with hlt | hge
    · left
      refine ⟨⟨?_, fun _ => hlt⟩, ?_⟩
      · rw [stencilRel, ← hci, ← hcj, hcc, sub_self]
        simp [stencilShifts]
      · rintro ⟨-, himp⟩
        have := himp (by rw [← hci, ← hcj, hcc])
        omega
    · have hlt : j < i := by omega
      right
      refine ⟨?_, ⟨?_, fun _ => hlt⟩⟩
      · rintro ⟨-, himp⟩
        have := himp (by rw [← hci, ← hcj, hcc])
        omega
      · rw [stencilRel, ← hci, ← hcj, hcc, sub_self]
        simp [stencilShifts]
  · have hcover := stencilShifts_cover nd e1 e2 he1 he2
    rw [← hsub] at hcover
    have hnotboth : ¬((cj - ci) ∈ stencilShifts nd ∧ (ci - cj) ∈ stencilShifts nd) := by
      rintro ⟨hm1, hm2⟩
      have := stencilShifts_antisymm nd h3 (cj - ci) hm1 (by rwa [neg_sub])
      exact hcc (sub_eq_zero.1 this).symm
    rcases hcover with hm | hm
    · right
      refine ⟨?_, ⟨?_, fun hc => absurd hc.symm hcc⟩⟩
      · rintro ⟨hs, -⟩
        exact hnotboth ⟨hs, hm⟩
      · rw [stencilRel, ← hci, ← hcj]
        exact hm
    · left
      rw [neg_sub] at hm
      refine ⟨⟨?_, fun hc => absurd hc hcc⟩, ?_⟩
      · rw [stencilRel, ← hci, ← hcj]
        exact hm
      · rintro ⟨hs, -⟩
        exact hnotboth ⟨hm, hs⟩

/-- Pairing the two orientations of each unordered pair: a guarded sum over
all ordered pairs with an exactly-one-orientation guard equals the
half-ordered (`i < j`) sum of the same terms. -/
theorem guarded_sum_eq_half (n : ℕ) (W : ℕ × ℕ → Prop) [DecidablePred W]
    (g : ℕ × ℕ → ℚ)
    (hdiag : ∀ i, g (i, i) = 0)
    (hsym : ∀ i j, g (j, i) = g (i, j))
    (hone : ∀ i j, i ≠ j → g (i, j) ≠ 0 →
      ((W (i, j) ∧ ¬W (j, i)) ∨ (¬W (i, j) ∧ W (j, i)))) :
    (∑ p ∈ Finset.range n ×ˢ Finset.range n, if W p then g p else 0)
      = ∑ p ∈ Finset.range n ×ˢ Finset.range n, if p.1 < p.2 then g p else 0 := by
  have hzero : ∑ p ∈ Finset.range n ×ˢ Finset.range n,
      ((if W p then g p else 0) - (if p.1 < p.2 then g p else 0)) = 0 := by
    apply Finset.sum_involution (fun p _ => p.swap)
    · rintro ⟨i, j⟩ -
      by_cases hij : i = j
      · subst hij
        simp [hdiag i]
      · simp only [Prod.swap_prod_mk]
        by_cases hg : g (i, j) = 0
        · have hg' : g (j, i) = 0 := by rw [hsym, hg]
          simp [hg, hg']
        · rcases hone i j hij hg with ⟨hw1, hw2⟩ | ⟨hw1, hw2⟩ <;>
            rcases Nat.lt_or_ge i j with hlt | hge
          · have hnlt : ¬j < i := by omega
            rw [if_pos hw1, if_neg hw2, if_pos hlt, if_neg hnlt]
            try rw [hsym i j]
            ring
          · have hlt' : j < i := by omega
            have hnlt : ¬i < j := by omega
            rw [if_pos hw1, if_neg hw2, if_neg hnlt, if_pos hlt']
            try rw [hsym i j]
            ring
          · have hnlt : ¬j < i := by omega
            rw [if_neg hw1, if_pos hw2, if_pos hlt, if_neg hnlt]
            try rw [hsym i j]
            ring
          · have hlt' : j < i := by omega
            have hnlt : ¬i < j := by omega
            rw [if_neg hw1, if_pos hw2, if_neg hnlt, if_pos hlt']
            try rw [hsym i j]
            ring
    · rintro ⟨i, j⟩ - hne
      intro hsw
      apply hne
      have hij : i = j := by
        have := congrArg Prod.fst hsw
        simpa using this.symm
      subst hij
      simp [hdiag i]
    · rintro ⟨i, j⟩ -
      rfl
    · rintro ⟨i, j⟩ hmem
      rw [Finset.mem_product] at hmem ⊢
      exact ⟨hmem.2, hmem.1⟩
  rw [Finset.sum_sub_distrib] at hzero
  linarith

/-- The refinement at the heart of the development: for a grid of dimension
at least 3 whose cell side is at least the unit cutoff, the cell-list force
computation of `calcInternalForces` agrees exactly with the brute-force
all-pairs scan, for every particle and both components. -/
theorem cellForces_eq_bruteForces (M : MathFns) (P : Params) (pos0 pos1 : ℕ → ℚ)
    (h3 : 3 ≤ P.n_div) (hnd : (P.n_div : ℚ) ≤ P.len) (m : ℕ) :
    (calcInternalForces M P pos0 pos1).1 m = (bruteForces M P pos0 pos1).1 m ∧
    (calcInternalForces M P pos0 pos1).2 m = (bruteForces M P pos0 pos1).2 m := by
  have hnd0 : (0 : ℚ) < (P.n_div : ℚ) := by
    have : (3 : ℚ) ≤ (P.n_div : ℚ) := by exact_mod_cast h3
    linarith
  have hl : 1 ≤ cellSide P := by
    rw [cellSide, le_div_iff hnd0]
    linarith
  have hbox : P.len = (P.n_div : ℚ) * cellSide P := by
    rw [cellSide]
    field_simp
  have hL3 : (3 : ℚ) ≤ P.len := by
    have : (3 : ℚ) ≤ (P.n_div : ℚ) := by exact_mod_cast h3
    linarith
  set pf := fun a b => pairForce M P.pot_strength P.len
    (pos0 a) (pos1 a) (pos0 b) (pos1 b) with hpf
  have hcut : ∀ i j : ℕ, i ≠ j → ∀ c : ℚ × ℚ, pf i j ≠ (0, 0) →
      ((genPairCond P.n_div (cellSide P) pos0 pos1 (i, j) ∧
        ¬genPairCond P.n_div (cellSide P) pos0 pos1 (j, i)) ∨
       (¬genPairCond P.n_div (cellSide P) pos0 pos1 (i, j) ∧
        genPairCond P.n_div (cellSide P) pos0 pos1 (j, i))) := by
    intro i j hij _ hne
    have hcond := pairForce_ne_zero_cond M P.pot_strength P.len
      (pos0 i) (pos1 i) (pos0 j) (pos1 j) hne
    have hlt1 : pbcSym (pos0 i - pos0 j) P.len * pbcSym (pos0 i - pos0 j) P.len
        + pbcSym (pos1 i - pos1 j) P.len * pbcSym (pos1 i - pos1 j) P.len < 1 := by
      nlinarith [mul_self_nonneg (pbcSym (pos0 i - pos0 j) P.len),
        mul_self_nonneg (pbcSym (pos1 i - pos1 j) P.len)]
    exact genPair_exactly_one P.n_div (cellSide P) P.len pos0 pos1 h3 hl hbox
      i j hij hlt1
  constructor
  · rw [show (calcInternalForces M P pos0 pos1).1 m
        = (0 : ℚ) + (((pairList P.n_div (cellSide P) P.n_parts pos0 pos1).map
            (contribX pf m)).sum) from foldl_applyPair_fst pf m _ _]
    rw [zero_add, pairList_sum P.n_div (cellSide P) P.n_parts pos0 pos1 h3]
    rw [← Finset.sum_product']
    rw [guarded_sum_eq_half P.n_parts (genPairCond P.n_div (cellSide P) pos0 pos1)
      (contribX pf m)
      (fun i => by
        simp only [contribX]
        split_ifs <;> ring)
      (fun i j => contribX_swap M P.pot_strength P.len pos0 pos1 hL3 m i j)
      (fun i j hij hg => by
        refine hcut i j hij (0, 0) ?_
        intro hpz
        apply hg
        simp only [contribX, hpz]
        split_ifs <;> ring)]
    rw [bruteForces]
    simp only []
    rw [Finset.sum_filter]
  · rw [show (calcInternalForces M P pos0 pos1).2 m
        = (0 : ℚ) + (((pairList P.n_div (cellSide P) P.n_parts pos0 pos1).map
            (contribY pf m)).sum) from foldl_applyPair_snd pf m _ _]
    rw [zero_add, pairList_sum P.n_div (cellSide P) P.n_parts pos0 pos1 h3]
    rw [← Finset.sum_product']
    rw [guarded_sum_eq_half P.n_parts (genPairCond P.n_div (cellSide P) pos0 pos1)
      (contribY pf m)
      (fun i => by
        simp only [contribY]
        split_ifs <;> ring)
      (fun i j => contribY_swap M P.pot_strength P.len pos0 pos1 hL3 m i j)
      (fun i j hij hg => by
        refine hcut i j hij (0, 0) ?_
        intro hpz
        apply hg
        simp only [contribY, hpz]
        split_ifs <;> ring)]
    rw [bruteForces]
    simp only []
    rw [Finset.sum_filter]

/-- Concrete fixture: two particles, box 3, grid 3, unit potential, zero
temperature, rotational diffusivity 1, no activity, unit timestep.  The
x-positions straddle the periodic boundary: `1/4` and `11/4` are at
minimum-image distance `1/2`. -/
def paramsC1 : Params := ⟨3, 2, 3, 1, 0, 1, 0, 1⟩

/-- Concrete fixture: boundary-straddling x-positions. -/
def posAcross : ℕ → ℚ := fun i => if i = 0 then 1/4 else 11/4

/-- Concrete fixture: common y-position zero. -/
def posZero : ℕ → ℚ := fun _ => 0

/-- Claim C1: for every configuration with all positions in `[0, len)²`,
with the spatial grid at least `3 × 3` and its cell side at least the unit
cutoff, the per-particle forces produced by `calcInternalForces` through
the cell list equal, exactly in the rational model, the forces of the
brute-force all-pairs scan with minimum-image displacements and the same
pair force law — pairs interacting only across the periodic boundary
included. -/
theorem claim_C1_cell_list_refines_brute_force (M : MathFns) (P : Params)
    (pos0 pos1 : ℕ → ℚ) (h3 : 3 ≤ P.n_div) (hnd : (P.n_div : ℚ) ≤ P.len)
    (hbox : ∀ i, i < P.n_parts →
      0 ≤ pos0 i ∧ pos0 i < P.len ∧ 0 ≤ pos1 i ∧ pos1 i < P.len) (m : ℕ) :
    (calcInternalForces M P pos0 pos1).1 m = (bruteForces M P pos0 pos1).1 m ∧
    (calcInternalForces M P pos0 pos1).2 m = (bruteForces M P pos0 pos1).2 m :=
  cellForces_eq_bruteForces M P pos0 pos1 h3 hnd m

/-- Witness for C1: a two-particle configuration interacting only across
the periodic boundary. -/
theorem claim_C1_cell_list_refines_brute_force_witness :
    (calcInternalForces mathTable paramsC1 posAcross posZero).1 0
      = (bruteForces mathTable paramsC1 posAcross posZero).1 0 ∧
    (calcInternalForces mathTable paramsC1 posAcross posZero).2 0
      = (bruteForces mathTable paramsC1 posAcross posZero).2 0 :=
  claim_C1_cell_list_refines_brute_force mathTable paramsC1 posAcross posZero
    (by norm_num [paramsC1]) (by norm_num [paramsC1])
    (by
      intro i hi
      simp only [paramsC1] at hi
      interval_cases i <;> norm_num [posAcross, posZero, paramsC1]) 0

/-- Concrete fixture for the deterministic two-particle scenario of C8:
box 3, grid 3, potential strength `k`, zero temperature, zero rotational
diffusivity, zero activity, timestep `dt`. -/
def paramsC8 (k dt : ℚ) : Params := ⟨3, 2, 3, k, 0, 0, 0, dt⟩

/-- Concrete fixture: x-positions `1/2` and `1` (squared distance `1/4`
along the x-axis). -/
def posC8x : ℕ → ℚ := fun i => if i = 0 then 1/2 else 1

/-- Concrete fixture: common y-position one. -/
def posC8y : ℕ → ℚ := fun _ => 1

/-- Concrete fixture: the two-particle state of the C8 scenario. -/
def stateC8 : State := ⟨posC8x, posC8y, fun _ => 0, fun _ => 0, fun _ => 0, 0⟩

set_option maxHeartbeats 2000000 in
/-- In the C8 configuration the cell list visits exactly the pair (0, 1). -/
theorem pairListC8 : pairList 3 1 2 posC8x posC8y = [(0, 1)] := by
  norm_num [pairList, cellsList, stencil, stencilShifts, pairsFor, partsOfBox,
    cellOf, List.range_succ, posC8x, posC8y]
  norm_num [List.filter_cons, List.filter_nil]
  simp +decide

/-- The pair force of the C8 pair: `u = k*(1/sqrt(1/4) - 1) = k` and
`dx = -1/2`, giving `(-(k/2), 0)` on particle 0. -/
theorem pairForceC8 (M : MathFns) (k : ℚ) (hs14 : M.sqrt (1/4) = 1/2) :
    pairForce M k 3 (1/2) 1 1 1 = (-(k/2), 0) := by
  rw [pairForce]
  simp only []
  have hdx : pbcSym (1/2 - 1) 3 = -(1/2) := by norm_num [pbcSym]
  have hdy : pbcSym (1 - 1 : ℚ) 3 = 0 := by norm_num [pbcSym]
  rw [hdx, hdy]
  rw [if_pos (by norm_num)]
  rw [show (-(1/2 : ℚ) * -(1/2) + 0 * 0) = 1/4 from by norm_num, hs14,
    Prod.mk.injEq]
  constructor <;> ring

/-- The internal forces of the C8 configuration. -/
theorem forcesC8 (M : MathFns) (k dt : ℚ) (hs14 : M.sqrt (1/4) = 1/2) :
    (calcInternalForces M (paramsC8 k dt) stateC8.positions0 stateC8.positions1).1 0
        = -(k/2) ∧
    (calcInternalForces M (paramsC8 k dt) stateC8.positions0 stateC8.positions1).1 1
        = k/2 ∧
    (calcInternalForces M (paramsC8 k dt) stateC8.positions0 stateC8.positions1).2 0
        = 0 ∧
    (calcInternalForces M (paramsC8 k dt) stateC8.positions0 stateC8.positions1).2 1
        = 0 := by
  have hcs : cellSide (paramsC8 k dt) = 1 := by
    norm_num [cellSide, paramsC8]
  have hpos0 : stateC8.positions0 = posC8x := rfl
  have hpos1 : stateC8.positions1 = posC8y := rfl
  rw [calcInternalForces, hcs, hpos0, hpos1,
    show (paramsC8 k dt).n_div = 3 from rfl,
    show (paramsC8 k dt).n_parts = 2 from rfl, pairListC8]
  rw [show (paramsC8 k dt).pot_strength = k from rfl,
    show (paramsC8 k dt).len = 3 from rfl]
  have hpf : pairForce M k 3 (posC8x 0) (posC8y 0) (posC8x 1) (posC8y 1)
      = (-(k/2), 0) := by
    rw [show posC8x 0 = 1/2 from rfl, show posC8x 1 = 1 from rfl,
      show posC8y 0 = 1 from rfl, show posC8y 1 = 1 from rfl]
    exact pairForceC8 M k hs14
  rw [List.foldl_cons, List.foldl_nil]
  simp only [applyPair, hpf]
  norm_num

/-- Pre-wrap positions after one `evolve()` step of the C8 scenario: each
particle moves `dt*k/2` along x, oppositely, and y is unchanged. -/
theorem evolveC8 (M : MathFns) (k dt : ℚ) (g : ℕ → ℚ)
    (hs14 : M.sqrt (1/4) = 1/2) (hs0 : M.sqrt 0 = 0) :
    (evolveScalarPre M (paramsC8 k dt) g stateC8).positions0 0 = 1/2 - dt * k / 2 ∧
    (evolveScalarPre M (paramsC8 k dt) g stateC8).positions0 1 = 1 + dt * k / 2 ∧
    (evolveScalarPre M (paramsC8 k dt) g stateC8).positions1 0 = 1 ∧
    (evolveScalarPre M (paramsC8 k dt) g stateC8).positions1 1 = 1 := by
  obtain ⟨hf0, hf1, hf2, hf3⟩ := forcesC8 M k dt hs14
  have hst : stddevTemp M (paramsC8 k dt) = 0 := by
    rw [stddevTemp, show (paramsC8 k dt).temperature = 0 from rfl]
    rw [show (2 : ℚ) * 0 * (paramsC8 k dt).dt = 0 from by ring, hs0]
  simp only [evolveScalarPre]
  rw [hst]
  refine ⟨?_, ?_, ?_, ?_⟩
  · rw [if_pos (by norm_num [paramsC8] : (0:ℕ) < (paramsC8 k dt).n_parts)]
    rw [hf0, show (paramsC8 k dt).activity = 0 from rfl,
      show (paramsC8 k dt).dt = dt from rfl,
      show stateC8.positions0 0 = 1/2 from rfl]
    ring
  · rw [if_pos (by norm_num [paramsC8] : (1:ℕ) < (paramsC8 k dt).n_parts)]
    rw [hf1, show (paramsC8 k dt).activity = 0 from rfl,
      show (paramsC8 k dt).dt = dt from rfl,
      show stateC8.positions0 1 = 1 from rfl]
    ring
  · rw [if_pos (by norm_num [paramsC8] : (0:ℕ) < (paramsC8 k dt).n_parts)]
    rw [hf2, show (paramsC8 k dt).activity = 0 from rfl,
      show (paramsC8 k dt).dt = dt from rfl,
      show stateC8.positions1 0 = 1 from rfl]
    ring
  · rw [if_pos (by norm_num [paramsC8] : (1:ℕ) < (paramsC8 k dt).n_parts)]
    rw [hf3, show (paramsC8 k dt).activity = 0 from rfl,
      show (paramsC8 k dt).dt = dt from rfl,
      show stateC8.positions1 1 = 1 from rfl]
    ring

/-- Counterexample to C8 as stated: in the claimed scenario with `k = 1`
and `dt = 1/2`, the pre-wrap displacement magnitude of particle 0 is
`dt*k/2 = 1/4`, not the claimed `dt*k = 1/2`. -/
theorem claim_C8_counterexample :
    |(evolveScalarPre mathTable (paramsC8 1 (1/2)) zeroStream stateC8).positions0 0
        - stateC8.positions0 0| = 1/4 ∧
    ¬(|(evolveScalarPre mathTable (paramsC8 1 (1/2)) zeroStream stateC8).positions0 0
        - stateC8.positions0 0| = (1/2 : ℚ) * 1) := by
  obtain ⟨h0, -, -, -⟩ := evolveC8 mathTable 1 (1/2) zeroStream
    (by norm_num [mathTable, sqrtTable]) (by norm_num [mathTable, sqrtTable])
  rw [h0, show stateC8.positions0 0 = 1/2 from rfl,
    show (1/2 : ℚ) - 1/2 * 1 / 2 - 1/2 = -(1/4) from by norm_num, abs_neg,
    abs_of_pos (by norm_num : (0:ℚ) < 1/4)]
  norm_num

/-- Claim C8, amended: with `T = 0`, `D_r = 0`, `v0 = 0` and two particles
at squared distance `1/4` along the x-axis, one step strictly increases
their separation, and each particle's pre-wrap displacement has magnitude
`dt*k/2` (that is, `dt` times the force magnitude `u*|dx| = k/2`), applied
oppositely — not `dt*k` as stated. -/
theorem claim_C8_amended_repulsion (M : MathFns) (k dt : ℚ) (g : ℕ → ℚ)
    (hk : 0 < k) (hdt : 0 < dt)
    (hs14 : M.sqrt (1/4) = 1/2) (hs0 : M.sqrt 0 = 0) :
    (evolveScalarPre M (paramsC8 k dt) g stateC8).positions0 1
        - (evolveScalarPre M (paramsC8 k dt) g stateC8).positions0 0
      = 1/2 + dt * k ∧
    (1/2 : ℚ) < 1/2 + dt * k ∧
    |(evolveScalarPre M (paramsC8 k dt) g stateC8).positions0 0
        - stateC8.positions0 0| = dt * k / 2 ∧
    |(evolveScalarPre M (paramsC8 k dt) g stateC8).positions0 1
        - stateC8.positions0 1| = dt * k / 2 ∧
    (evolveScalarPre M (paramsC8 k dt) g stateC8).positions0 0 - stateC8.positions0 0
      = -((evolveScalarPre M (paramsC8 k dt) g stateC8).positions0 1
          - stateC8.positions0 1) ∧
    (evolveScalarPre M (paramsC8 k dt) g stateC8).positions1 0 = stateC8.positions1 0 ∧
    (evolveScalarPre M (paramsC8 k dt) g stateC8).positions1 1 = stateC8.positions1 1 := by
  obtain ⟨h0, h1, h2, h3⟩ := evolveC8 M k dt g hs14 hs0
  have hpos : 0 < dt * k := mul_pos hdt hk
  refine ⟨?_, by linarith, ?_, ?_, ?_, ?_, ?_⟩
  · rw [h0, h1]
    ring
  · rw [h0, show stateC8.positions0 0 = 1/2 from rfl]
    rw [show (1/2 : ℚ) - dt * k / 2 - 1/2 = -(dt * k / 2) from by ring, abs_neg,
      abs_of_pos (by linarith)]
  · rw [h1, show stateC8.positions0 1 = 1 from rfl]
    rw [show (1 : ℚ) + dt * k / 2 - 1 = dt * k / 2 from by ring,
      abs_of_pos (by linarith)]
  · rw [h0, h1, show stateC8.positions0 0 = 1/2 from rfl,
      show stateC8.positions0 1 = 1 from rfl]
    ring
  · rw [h2]
    rfl
  · rw [h3]
    rfl

/-- Witness for the amended C8 theorem at `k = 1`, `dt = 1/2`. -/
theorem claim_C8_amended_repulsion_witness :
    (evolveScalarPre mathTable (paramsC8 1 (1/2)) zeroStream stateC8).positions0 1
        - (evolveScalarPre mathTable (paramsC8 1 (1/2)) zeroStream stateC8).positions0 0
      = 1/2 + (1/2) * 1 ∧
    (1/2 : ℚ) < 1/2 + (1/2) * 1 :=
  ⟨(claim_C8_amended_repulsion mathTable 1 (1/2) zeroStream (by norm_num)
      (by norm_num) (by norm_num [mathTable, sqrtTable])
      (by norm_num [mathTable, sqrtTable])).1,
   (claim_C8_amended_repulsion mathTable 1 (1/2) zeroStream (by norm_num)
      (by norm_num) (by norm_num [mathTable, sqrtTable])
      (by norm_num [mathTable, sqrtTable])).2.1⟩

/-- `notPositive` from `simul.h` lines 81-89 (boolean result; the error
print accompanies exactly the `true` branch): `true` iff `a < 0`. -/
def notPositive (a : ℚ) : Bool := if a < 0 then true else false

/-- `notStrPositive` from `simul.h` lines 101-109: `true` iff `a ≤ 0`. -/
def notStrPositive (a : ℚ) : Bool := if a ≤ 0 then true else false

/-- Claim C10: `notPositive a` returns `true` exactly when `a < 0` and
returns `false` at `a = 0` (zero passes the non-negative check, so no error
is printed for it), while `notStrPositive a` returns `true` exactly when
`a ≤ 0`; hence zero passes `notPositive` but is rejected by
`notStrPositive`. -/
theorem claim_C10_parameter_checks :
    (∀ a : ℚ, notPositive a = true ↔ a < 0) ∧
    notPositive 0 = false ∧
    (∀ a : ℚ, notStrPositive a = true ↔ a ≤ 0) ∧
    notStrPositive 0 = true := by
  refine ⟨fun a => ?_, ?_, fun a => ?_, ?_⟩
  · by_cases h : a < 0 <;> simp [notPositive, h]
  · simp [notPositive]
  · by_cases h : a ≤ 0 <;> simp [notStrPositive, h]
  · simp [notStrPositive]

/-- The canonical wrap lands in `[0, p)` for positive period `p`. -/
theorem pbc_nonneg_lt (x p : ℚ) (hp : 0 < p) : 0 ≤ pbc x p ∧ pbc x p < p := by
  have hfr : pbc x p = p * Int.fract (x / p) := by
    rw [pbc, Int.fract]
    field_simp
  constructor
  · rw [hfr]
    exact mul_nonneg hp.le (Int.fract_nonneg _)
  · rw [hfr]
    calc p * Int.fract (x / p) < p * 1 :=
          mul_lt_mul_of_pos_left (Int.fract_lt_one _) hp
    _ = p := mul_one p

/-- The double constant `2.0 * M_PI` is positive. -/
theorem twoPi_pos : 0 < twoPi := by norm_num [twoPi]

/-- After `enforcePBC`, every stored coordinate of a live particle is in its
canonical range. -/
theorem enforcePBC_bounds (P : Params) (s : State) (hL : 0 < P.len) (i : ℕ)
    (hi : i < P.n_parts) :
    (0 ≤ (enforcePBC P s).positions0 i ∧ (enforcePBC P s).positions0 i < P.len) ∧
    (0 ≤ (enforcePBC P s).positions1 i ∧ (enforcePBC P s).positions1 i < P.len) ∧
    (0 ≤ (enforcePBC P s).angles i ∧ (enforcePBC P s).angles i < twoPi) := by
  simp only [enforcePBC, if_pos hi]
  exact ⟨pbc_nonneg_lt _ _ hL, pbc_nonneg_lt _ _ hL, pbc_nonneg_lt _ _ twoPi_pos⟩

/-- Claim C4: after every `evolve()` call — in the scalar path and in the
MKL path of either revision — every particle has `0 ≤ x < len`,
`0 ≤ y < len` and `0 ≤ θ < 2π`: the canonical non-negative wrap is applied
to all three stored quantities at the end of each step. -/
theorem claim_C4_periodicity_invariant (M : MathFns) (P : Params) (g : ℕ → ℚ)
    (s : State) (hL : 0 < P.len) (i : ℕ) (hi : i < P.n_parts) :
    ((0 ≤ (evolveScalar M P g s).positions0 i ∧ (evolveScalar M P g s).positions0 i < P.len) ∧
     (0 ≤ (evolveScalar M P g s).positions1 i ∧ (evolveScalar M P g s).positions1 i < P.len) ∧
     (0 ≤ (evolveScalar M P g s).angles i ∧ (evolveScalar M P g s).angles i < twoPi)) ∧
    ((0 ≤ (evolveMklV1 M P g s).positions0 i ∧ (evolveMklV1 M P g s).positions0 i < P.len) ∧
     (0 ≤ (evolveMklV1 M P g s).positions1 i ∧ (evolveMklV1 M P g s).positions1 i < P.len) ∧
     (0 ≤ (evolveMklV1 M P g s).angles i ∧ (evolveMklV1 M P g s).angles i < twoPi)) ∧
    ((0 ≤ (evolveMklV2 M P g s).positions0 i ∧ (evolveMklV2 M P g s).positions0 i < P.len) ∧
     (0 ≤ (evolveMklV2 M P g s).positions1 i ∧ (evolveMklV2 M P g s).positions1 i < P.len) ∧
     (0 ≤ (evolveMklV2 M P g s).angles i ∧ (evolveMklV2 M P g s).angles i < twoPi)) :=
  ⟨enforcePBC_bounds P _ hL i hi, enforcePBC_bounds P _ hL i hi,
   enforcePBC_bounds P _ hL i hi⟩

/-- Witness for C4 at a concrete instance (one particle, box of side 3). -/
theorem claim_C4_periodicity_invariant_witness :
    ((0 ≤ (evolveScalar mathTable paramsB zeroStream zeroState).positions0 0 ∧
      (evolveScalar mathTable paramsB zeroStream zeroState).positions0 0 < paramsB.len) ∧
     (0 ≤ (evolveScalar mathTable paramsB zeroStream zeroState).positions1 0 ∧
      (evolveScalar mathTable paramsB zeroStream zeroState).positions1 0 < paramsB.len) ∧
     (0 ≤ (evolveScalar mathTable paramsB zeroStream zeroState).angles 0 ∧
      (evolveScalar mathTable paramsB zeroStream zeroState).angles 0 < twoPi)) :=
  (claim_C4_periodicity_invariant mathTable paramsB zeroStream zeroState
    (by norm_num [paramsB]) 0 (by norm_num [paramsB])).1

/-- Claim C9: two instances constructed with the same parameters and the
same seed (the seed determines the generator's uniform and Gaussian streams)
produce identical trajectories: after any equal number of `evolve()` calls
their position, orientation and force arrays agree elementwise.  The seeding
map `prng` is modelled from the spec (sections 6 and 9): the original code
seeds from wall-clock time, so the seed stands for that observed value. -/
theorem claim_C9_same_seed_same_trajectory (M : MathFns) (P : Params)
    (prng : ℕ → (ℕ → ℚ) × (ℕ → ℚ)) (seed : ℕ) (s1 s2 : State)
    (h1 : s1 = initScalar P (prng seed).1) (h2 : s2 = initScalar P (prng seed).1)
    (k : ℕ) :
    trajectory M P (prng seed).2 s1 k = trajectory M P (prng seed).2 s2 k ∧
    ∀ i : ℕ,
      (trajectory M P (prng seed).2 s1 k).positions0 i =
        (trajectory M P (prng seed).2 s2 k).positions0 i ∧
      (trajectory M P (prng seed).2 s1 k).positions1 i =
        (trajectory M P (prng seed).2 s2 k).positions1 i ∧
      (trajectory M P (prng seed).2 s1 k).angles i =
        (trajectory M P (prng seed).2 s2 k).angles i ∧
      (trajectory M P (prng seed).2 s1 k).forces0 i =
        (trajectory M P (prng seed).2 s2 k).forces0 i ∧
      (trajectory M P (prng seed).2 s1 k).forces1 i =
        (trajectory M P (prng seed).2 s2 k).forces1 i := by
  subst h1
  subst h2
  exact ⟨rfl, fun i => ⟨rfl, rfl, rfl, rfl, rfl⟩⟩

/-- Witness for C9: a concrete seeded pair of instances, two steps. -/
theorem claim_C9_same_seed_same_trajectory_witness :
    trajectory mathTable paramsB (constPrng 7).2
      (initScalar paramsB (constPrng 7).1) 2 =
    trajectory mathTable paramsB (constPrng 7).2
      (initScalar paramsB (constPrng 7).1) 2 :=
  (claim_C9_same_seed_same_trajectory mathTable paramsB constPrng 7
    (initScalar paramsB (constPrng 7).1) (initScalar paramsB (constPrng 7).1)
    rfl rfl 2).1

/-- Claim C3 is violated by the MKL path of the first revision: for every
Gaussian stream, the value the code adds to `angles[i]` is the SAME stream
sample, with the same `stddev_temp` scale, as the noise added to
`positions[0][i]` — line 127 adds the reloaded `aux_x` buffer (holding the
x-translational Gaussian block) to the angles, while the `aux_angle` block
drawn with `stddev_rot` is never used. -/
theorem claim_C3_mkl_v1_reuses_x_noise_for_angle (M : MathFns) (P : Params)
    (g : ℕ → ℚ) (s : State) (i : ℕ) (hi : i < P.n_parts) :
    (evolveMklV1Pre M P g s).angles i =
      s.angles i + stddevTemp M P * g (s.rngCount + i) ∧
    (evolveMklV1Pre M P g s).positions0 i =
      s.positions0 i
        + P.dt * ((calcInternalForces M P s.positions0 s.positions1).1 i
            + P.activity * M.cos (s.angles i))
        + stddevTemp M P * g (s.rngCount + i) := by
  constructor
  · simp [evolveMklV1Pre, hi]
  · simp [evolveMklV1Pre, hi]

/-- Witness for the C3 violation theorem at a concrete instance. -/
theorem claim_C3_mkl_v1_reuses_x_noise_for_angle_witness :
    (evolveMklV1Pre mathTable paramsA gLin zeroState).angles 0 =
      zeroState.angles 0 + stddevTemp mathTable paramsA * gLin (zeroState.rngCount + 0) :=
  (claim_C3_mkl_v1_reuses_x_noise_for_angle mathTable paramsA gLin zeroState
    0 (by norm_num [paramsA])).1

/-- Claim C2 fails on the MKL path of the first revision: at a concrete
instance with `stddev_temp = 1`, `stddev_rot = 0` (temperature `1/2`,
`rot_dif = 0`, `dt = 1`, `sqrt` exact at `0` and `1`) and Gaussian stream
`g k = 5 + k`, the pre-wrap angle after one step is `5` (the x-noise sample
`g 0` scaled by `stddev_temp`), whereas the claimed update
`θ + η = θ + stddev_rot * g 2` — which the scalar path and the second
revision's MKL path both produce — is `0`. -/
theorem claim_C2_mkl_v1_angle_update_diverges :
    (evolveMklV1Pre mathTable paramsA gLin zeroState).angles 0 = 5 ∧
    (evolveScalarPre mathTable paramsA gLin zeroState).angles 0 = 0 ∧
    (evolveMklV2Pre mathTable paramsA gLin zeroState).angles 0 = 0 ∧
    (5 : ℚ) ≠ 0 := by
  refine ⟨?_, ?_, ?_, by norm_num⟩
  · norm_num [evolveMklV1Pre, stddevTemp, mathTable, sqrtTable, paramsA, gLin, zeroState]
  · norm_num [evolveScalarPre, stddevRot, mathTable, sqrtTable, paramsA, gLin, zeroState]
  · norm_num [evolveMklV2Pre, stddevRot, mathTable, sqrtTable, paramsA, gLin, zeroState]

/-- Claim C7 fails on the MKL constructor of the second revision: with the
uniform unit stream constantly `1/2`, the claim requires the stored angle of
particle 0 to be the uniform draw `2π * (1/2) ≠ 0` (as the scalar
constructor and the first revision's MKL constructor indeed store), but the
second revision writes the angle draws into `ran_num_angle` and leaves
`angles` value-initialized at `0`. -/
theorem claim_C7_mkl_v2_ctor_angles_uninitialized :
    (initMklV2 paramsB halfStream).angles 0 = 0 ∧
    twoPi * (1/2) ≠ 0 ∧
    (initMklV1 paramsB halfStream).angles 0 = twoPi * (1/2) ∧
    (initScalar paramsB halfStream).angles 0 = twoPi * (1/2) ∧
    (initMklV2 paramsB halfStream).forces0 0 = 0 ∧
    (initMklV2 paramsB halfStream).forces1 0 = 0 := by
  refine ⟨by simp [initMklV2], ?_, by simp [initMklV1, paramsB, halfStream],
    by simp [initScalar, paramsB, halfStream],
    by simp [initMklV2], by simp [initMklV2]⟩
  norm_num [twoPi]

/-- Claim C5: in the pair loop of `calcInternalForces`, the branch condition
`dr2 * (1 - dr2) > 0` holds exactly when `0 < dr2 < 1`; when it holds the
contribution added to particle `i` is `(u*dx, u*dy)` with
`u = k*(1/sqrt(dr2) - 1)`; when `dr2 ≥ 1` (in particular at `dr2 = 1`
exactly) or `dr2 = 0`, no force is applied. -/
theorem claim_C5_cutoff_and_force_law (M : MathFns) (k l xi yi xj yj dx dy dr2 : ℚ)
    (hdx : dx = pbcSym (xi - xj) l) (hdy : dy = pbcSym (yi - yj) l)
    (hdr2 : dr2 = dx * dx + dy * dy) :
    (dr2 * (1 - dr2) > 0 ↔ 0 < dr2 ∧ dr2 < 1) ∧
    (0 < dr2 → dr2 < 1 →
      pairForce M k l xi yi xj yj =
        (k * (1 / M.sqrt dr2 - 1) * dx, k * (1 / M.sqrt dr2 - 1) * dy)) ∧
    (1 ≤ dr2 → pairForce M k l xi yi xj yj = (0, 0)) ∧
    (dr2 = 0 → pairForce M k l xi yi xj yj = (0, 0)) := by
  subst hdx hdy hdr2
  have hiff : (pbcSym (xi - xj) l * pbcSym (xi - xj) l +
      pbcSym (yi - yj) l * pbcSym (yi - yj) l) *
      (1 - (pbcSym (xi - xj) l * pbcSym (xi - xj) l +
        pbcSym (yi - yj) l * pbcSym (yi - yj) l)) > 0 ↔
      (0 < pbcSym (xi - xj) l * pbcSym (xi - xj) l +
        pbcSym (yi - yj) l * pbcSym (yi - yj) l ∧
       pbcSym (xi - xj) l * pbcSym (xi - xj) l +
        pbcSym (yi - yj) l * pbcSym (yi - yj) l < 1) := by
    constructor
    · intro h
      constructor <;> nlinarith [sq_nonneg (pbcSym (xi - xj) l), sq_nonneg (pbcSym (yi - yj) l)]
    · rintro ⟨h1, h2⟩
      nlinarith
  refine ⟨hiff, fun h1 h2 => ?_, fun h => ?_, fun h => ?_⟩
  · rw [pairForce]
    simp only []
    rw [if_pos (by nlinarith)]
  · rw [pairForce]
    simp only []
    rw [if_neg (by nlinarith)]
  · rw [pairForce]
    simp only []
    rw [if_neg (by rw [h]; norm_num)]

/-- Witness for C5 at a concrete input: two particles at squared distance
`1/4` along the x-axis in a box of side 3; the branch is taken and the
contribution is `(k*(1/(1/2) - 1)*dx, ...) = (1/2, 0)` for `k = 1`. -/
theorem claim_C5_cutoff_and_force_law_witness :
    pairForce mathTable 1 3 1 0 (1/2) 0 = (1/2, 0) := by
  have h := claim_C5_cutoff_and_force_law mathTable 1 3 1 0 (1/2) 0
    (pbcSym (1 - 1/2) 3) (pbcSym (0 - 0) 3)
    (pbcSym (1 - 1/2) 3 * pbcSym (1 - 1/2) 3 + pbcSym (0 - 0) 3 * pbcSym (0 - 0) 3)
    rfl rfl rfl
  have hdx : pbcSym (1 - 1/2) 3 = 1/2 := by norm_num [pbcSym]
  have hdy : pbcSym (0 - 0 : ℚ) 3 = 0 := by norm_num [pbcSym]
  have := h.2.1 (by rw [hdx, hdy]; norm_num) (by rw [hdx, hdy]; norm_num)
  rw [this, hdx, hdy]
  norm_num [mathTable, sqrtTable]

end ActiveBrownian
